import Mathlib

/-!
Shallow embedding of the weighted-wheel selection and normalization engine of
the spinner repository (src/app/page.tsx), together with theorems settling the
specification claims.  JS numbers are modelled as rationals; JS Math.round,
Math.floor, and the % remainder operator are modelled explicitly.
-/

namespace Spinner

/-- One wheel segment, the WheelItem interface of src/app/page.tsx.
The optional TS field hidden (undefined meaning false) is a Bool here. -/
structure WheelItem where
  id : String
  label : String
  probability : ℚ
  color : String
  hidden : Bool
  deriving DecidableEq, Repr

/-- The fixed colour palette COLORS of src/app/page.tsx. -/
def COLORS : List String :=
  ["#FF6384", "#36A2EB", "#FFCE56", "#4BC0C0", "#9966FF",
   "#FF9F40", "#8AC926", "#1982C4", "#6A4C93", "#F15BB5"]

/-- JS Math.round: round half toward positive infinity. -/
def jsRound (q : ℚ) : ℤ := ⌊q + 1 / 2⌋

/-- JS truncation toward zero, the rounding used by the remainder operator. -/
def jsTrunc (q : ℚ) : ℤ := if 0 ≤ q then ⌊q⌋ else -⌊-q⌋

/-- The JS remainder operator x % y (y nonzero): x - y * trunc (x / y). -/
def jsMod (x y : ℚ) : ℚ := x - y * (jsTrunc (x / y) : ℚ)

/-- Sum of the weights of all items of a list (the reduce of the source). -/
def probSum (items : List WheelItem) : ℚ := (items.map fun it => it.probability).sum

/-- The safeItems step of normalizeProbabilities: clamp every weight to ≥ 1. -/
def clampItems (updatedItems : List WheelItem) : List WheelItem :=
  updatedItems.map fun it => { it with probability := max 1 it.probability }

/-- The pinned branch of normalizeProbabilities: keep the fixed item, scale
the others to the remaining total in proportion to their weights. -/
def pinnedAdjust (safeItems : List WheelItem) (fid : String) (fixedItem : WheelItem) :
    List WheelItem :=
  let remainingTotal := 100 - fixedItem.probability
  let otherItemsTotal :=
    ((safeItems.filter fun it => it.id ≠ fid).map fun it => it.probability).sum
  safeItems.map fun it =>
    if it.id = fid then it
    else
      let ratio := if otherItemsTotal = 0 then 1 else it.probability / otherItemsTotal
      { it with probability := max 1 ((jsRound (remainingTotal * ratio) : ℤ) : ℚ) }

/-- The proportional branch of normalizeProbabilities. -/
def proportionalAdjust (safeItems : List WheelItem) (total : ℚ) : List WheelItem :=
  safeItems.map fun it =>
    { it with probability := max 1 ((jsRound (it.probability / total * 100) : ℤ) : ℚ) }

/-- normalizeProbabilities of src/app/page.tsx: clamp every weight to at least
1; then either (pinned mode, fixedId given and found) keep the fixed item and
scale the others to the remaining total in proportion to their weights, or
(proportional mode) rescale every item so the weights aim at a sum of 100. -/
def normalizeProbabilities (updatedItems : List WheelItem) (fixedId : Option String) :
    List WheelItem :=
  let safeItems := clampItems updatedItems
  let total := probSum safeItems
  if total = 0 then safeItems
  else
    match fixedId with
    | some fid =>
      match safeItems.find? fun it => it.id = fid with
      | none => safeItems
      | some fixedItem => pinnedAdjust safeItems fid fixedItem
    | none => proportionalAdjust safeItems total

/-- Index-free form of the body of calculateEqualShare: the source maps with an
index and gives every position the equal share except the last position, which
receives the remainder; this recursion does the same by structure. -/
def assignShares (share lastShare : ℚ) : List WheelItem → List WheelItem
  | [] => []
  | [it] => [{ it with probability := lastShare }]
  | it :: rest => { it with probability := share } :: assignShares share lastShare rest

/-- calculateEqualShare of src/app/page.tsx: every visible item receives
Math.floor(100 / N), except the last, which receives 100 minus the others. -/
def calculateEqualShare (visibleItems : List WheelItem) : List WheelItem :=
  let equalShare : ℚ := ((100 / visibleItems.length : ℕ) : ℚ)
  assignShares equalShare
    (100 - equalShare * ((visibleItems.length - 1 : ℕ) : ℚ)) visibleItems

/-- getVisibleItems of src/app/page.tsx. -/
def getVisibleItems (items : List WheelItem) : List WheelItem :=
  items.filter fun it => !it.hidden

/-- addItem of src/app/page.tsx.  The fresh Date.now id is a parameter. -/
def addItem (items : List WheelItem) (newItemLabel : String) (newId : String) :
    List WheelItem :=
  if newItemLabel.trim = "" then items
  else
    let newItem : WheelItem :=
      { id := newId, label := newItemLabel, probability := 10,
        color := COLORS.getD (items.length % COLORS.length) "", hidden := false }
    normalizeProbabilities (items ++ [newItem]) none

/-- The final merge step shared by removeItem and toggleItemVisibility: keep
hidden items as they are, and give every visible item its entry of the
equal-share list (looked up by id, falling back to the item itself). -/
def mergeVisible (updatedItems normalizedVisible : List WheelItem) : List WheelItem :=
  updatedItems.map fun it =>
    if it.hidden then it
    else (normalizedVisible.find? fun ni => ni.id = it.id).getD it

/-- removeItem of src/app/page.tsx. -/
def removeItem (items : List WheelItem) (id : String) : List WheelItem :=
  if items.length ≤ 2 then items
  else
    let updatedItems := items.filter fun it => it.id ≠ id
    mergeVisible updatedItems (calculateEqualShare (getVisibleItems updatedItems))

/-- updateProbability of src/app/page.tsx. -/
def updateProbability (items : List WheelItem) (id : String) (value : ℚ) : List WheelItem :=
  let newValue := max 1 (min 99 value)
  normalizeProbabilities
    (items.map fun it => if it.id = id then { it with probability := newValue } else it)
    (some id)

/-- toggleItemVisibility of src/app/page.tsx. -/
def toggleItemVisibility (items : List WheelItem) (id : String) : List WheelItem :=
  let updatedItems := items.map fun it =>
    if it.id = id then { it with hidden := !it.hidden } else it
  mergeVisible updatedItems (calculateEqualShare (getVisibleItems updatedItems))

/-- The scan of determineWinner over the normalized items, carrying the
cumulative currentAngle. -/
def findWinnerAux (normalizedAngle : ℚ) (currentAngle : ℚ) :
    List WheelItem → Option WheelItem
  | [] => none
  | it :: rest =>
    let sliceAngle := 360 * it.probability / 100
    if currentAngle ≤ normalizedAngle ∧ normalizedAngle < currentAngle + sliceAngle then
      some it
    else findWinnerAux normalizedAngle (currentAngle + sliceAngle) rest

/-- determineWinner of src/app/page.tsx: JS-remainder the rotation by 360,
re-normalize the visible items, and scan their arcs. -/
def determineWinner (currentRotation : ℚ) (visibleItems : List WheelItem) :
    Option WheelItem :=
  findWinnerAux (jsMod currentRotation 360) 0 (normalizeProbabilities visibleItems none)

/-- The initial items state of the component. -/
def initialItems : List WheelItem :=
  [{ id := "1", label := "Prize 1", probability := 20, color := "#FF6384", hidden := false },
   { id := "2", label := "Prize 2", probability := 20, color := "#36A2EB", hidden := false },
   { id := "3", label := "Prize 3", probability := 20, color := "#FFCE56", hidden := false },
   { id := "4", label := "Prize 4", probability := 20, color := "#4BC0C0", hidden := false },
   { id := "5", label := "Prize 5", probability := 20, color := "#9966FF", hidden := false }]

/-- The mutating collection operations of the component.  An addSegment carries
the fresh Date.now id; setWeight carries an integer, the slider and the
parseInt field both producing integers. -/
inductive WheelOp where
  | addSegment (label : String) (newId : String)
  | removeSegment (id : String)
  | setWeight (id : String) (value : ℤ)
  | toggleVisibility (id : String)

/-- One operation applied to the items state. -/
def applyOp (items : List WheelItem) : WheelOp → List WheelItem
  | WheelOp.addSegment label newId => addItem items label newId
  | WheelOp.removeSegment id => removeItem items id
  | WheelOp.setWeight id value => updateProbability items id (value : ℚ)
  | WheelOp.toggleVisibility id => toggleItemVisibility items id

/-- A sequence of operations applied in order. -/
def runOps (items : List WheelItem) (ops : List WheelOp) : List WheelItem :=
  ops.foldl applyOp items

/-- Freshness of one operation: an added id is not already present
(per the data model, ids are unique and never reused). -/
def opOk (items : List WheelItem) : WheelOp → Prop
  | WheelOp.addSegment _ newId => newId ∉ items.map fun it => it.id
  | _ => True

/-- Freshness along a whole sequence of operations. -/
def freshOps : List WheelItem → List WheelOp → Prop
  | _, [] => True
  | s, op :: rest => opOk s op ∧ freshOps (applyOp s op) rest

/-- Sum of the weights of the visible items. -/
def visibleSum (items : List WheelItem) : ℚ := probSum (getVisibleItems items)

/-- Number of visible items. -/
def visibleCount (items : List WheelItem) : ℕ := (getVisibleItems items).length

/-- Modelled from the spec: the Selection Resolver of section 4.2, for
comparison with determineWinner.  It reduces the angle into [0, 360) by true
modular reduction and scans contiguous arcs of width weight/100 * 360 over the
given segments, without re-normalizing them. -/
def specFindArc (theta : ℚ) (start : ℚ) : List WheelItem → Option WheelItem
  | [] => none
  | seg :: rest =>
    let arcWidth := seg.probability / 100 * 360
    if start ≤ theta ∧ theta < start + arcWidth then some seg
    else specFindArc theta (start + arcWidth) rest

/-- Modelled from the spec: resolveWinner per section 4.2. -/
def specResolveWinner (angle : ℚ) (segments : List WheelItem) : Option WheelItem :=
  specFindArc (angle - 360 * (⌊angle / 360⌋ : ℚ)) 0 segments

/-- No item of the list is hidden. -/
def NoHidden (items : List WheelItem) : Prop := ∀ it ∈ items, it.hidden = false

instance (l : List WheelItem) : Decidable (NoHidden l) :=
  inferInstanceAs (Decidable (∀ it ∈ l, it.hidden = false))

/-- The sum condition a state satisfies when nothing is hidden: either an
exact equal-share total of 100, or weights at least 1 with the total within
the item count of 100. -/
def GoodSum (s : List WheelItem) : Prop :=
  probSum s = 100
  ∨ ((∀ it ∈ s, 1 ≤ it.probability) ∧ |probSum s - 100| ≤ (s.length : ℚ))

/-- Invariant of states reachable from the initial collection: at least two
items, unique ids, nonnegative weights, and a controlled visible total when
no item is hidden. -/
def Inv (s : List WheelItem) : Prop :=
  2 ≤ s.length ∧ ((s.map fun it => it.id).Nodup)
  ∧ (∀ it ∈ s, 0 ≤ it.probability) ∧ (NoHidden s → GoodSum s)

/-- The data the normalizer actually reads from an item. -/
def itemKey (it : WheelItem) : String × ℚ := (it.id, it.probability)

/-- Clearing every hidden flag. -/
def unhideAll (items : List WheelItem) : List WheelItem :=
  items.map fun it => { it with hidden := false }

/-- Two segments for small concrete checks. -/
def twoSegs : List WheelItem :=
  [{ id := "1", label := "A", probability := 60, color := "c", hidden := false },
   { id := "2", label := "B", probability := 40, color := "c", hidden := false }]

/-- A hidden and a visible segment, both of weight 20. -/
def hiddenPair : List WheelItem :=
  [{ id := "1", label := "A", probability := 20, color := "c", hidden := true },
   { id := "2", label := "B", probability := 20, color := "c", hidden := false }]

/-- A single full-circle segment. -/
def singleSeg : List WheelItem :=
  [{ id := "1", label := "A", probability := 100, color := "c", hidden := false }]

/-- Three segments, all hidden. -/
def threeHidden : List WheelItem :=
  [{ id := "1", label := "A", probability := 20, color := "c", hidden := true },
   { id := "2", label := "B", probability := 30, color := "c", hidden := true },
   { id := "3", label := "C", probability := 50, color := "c", hidden := true }]

/-- Hiding all five initial segments, one toggle at a time. -/
def hideAllOps : List WheelOp :=
  [WheelOp.toggleVisibility "1", WheelOp.toggleVisibility "2", WheelOp.toggleVisibility "3",
   WheelOp.toggleVisibility "4", WheelOp.toggleVisibility "5"]

/-- A segment of weight 20 with the given id. -/
def mkSeg (i : String) : WheelItem :=
  { id := i, label := "L", probability := 20, color := "c", hidden := false }

/-- A list of 101 distinct ids. -/
def manyIds : List String := ["i1", "i2", "i3", "i4", "i5", "i6", "i7", "i8", "i9", "i10", "i11", "i12", "i13", "i14", "i15", "i16", "i17", "i18", "i19", "i20", "i21", "i22", "i23", "i24", "i25", "i26", "i27", "i28", "i29", "i30", "i31", "i32", "i33", "i34", "i35", "i36", "i37", "i38", "i39", "i40", "i41", "i42", "i43", "i44", "i45", "i46", "i47", "i48", "i49", "i50", "i51", "i52", "i53", "i54", "i55", "i56", "i57", "i58", "i59", "i60", "i61", "i62", "i63", "i64", "i65", "i66", "i67", "i68", "i69", "i70", "i71", "i72", "i73", "i74", "i75", "i76", "i77", "i78", "i79", "i80", "i81", "i82", "i83", "i84", "i85", "i86", "i87", "i88", "i89", "i90", "i91", "i92", "i93", "i94", "i95", "i96", "i97", "i98", "i99", "i100", "i101"]

/-- A list of 101 visible segments with distinct ids, each of weight 20. -/
def manyItems : List WheelItem := manyIds.map mkSeg

/-! ### Structural facts about the building blocks -/

theorem assignShares_length (a b : ℚ) (l : List WheelItem) :
    (assignShares a b l).length = l.length := by
  induction l with
  | nil => rfl
  | cons it rest ih =>
    cases rest with
    | nil => rfl
    | cons it2 rest2 => simpa [assignShares] using ih

theorem assignShares_map_proj {β : Type} (F : WheelItem → β)
    (hF : ∀ it q, F { it with probability := q } = F it) (a b : ℚ)
    (l : List WheelItem) : (assignShares a b l).map F = l.map F := by
  induction l with
  | nil => rfl
  | cons it rest ih =>
    cases rest with
    | nil => simp [assignShares, hF]
    | cons it2 rest2 =>
      simp only [assignShares, List.map_cons] at ih ⊢
      rw [hF, ih]

theorem assignShares_probs (a b : ℚ) (l : List WheelItem) (h : l ≠ []) :
    (assignShares a b l).map (fun it => it.probability)
      = List.replicate (l.length - 1) a ++ [b] := by
  induction l with
  | nil => exact absurd rfl h
  | cons it rest ih =>
    cases rest with
    | nil => simp [assignShares]
    | cons it2 rest2 =>
      simp only [assignShares, List.map_cons]
      rw [ih (by simp)]
      simp [List.replicate_succ]

theorem assignShares_mem (a b : ℚ) (l : List WheelItem) :
    ∀ it' ∈ assignShares a b l, it'.probability = a ∨ it'.probability = b := by
  induction l with
  | nil => intro it' hm; simp [assignShares] at hm
  | cons it rest ih =>
    cases rest with
    | nil =>
      intro it' hm
      simp only [assignShares, List.mem_singleton] at hm
      subst hm; right; rfl
    | cons it2 rest2 =>
      intro it' hm
      simp only [assignShares, List.mem_cons] at hm
      rcases hm with rfl | hm
      · left; rfl
      · exact ih it' hm

theorem assignShares_mem_src (a b : ℚ) (l : List WheelItem) :
    ∀ it' ∈ assignShares a b l, ∃ src ∈ l, it'.id = src.id ∧ it'.hidden = src.hidden := by
  induction l with
  | nil => intro it' hm; simp [assignShares] at hm
  | cons it rest ih =>
    cases rest with
    | nil =>
      intro it' hm
      simp only [assignShares, List.mem_singleton] at hm
      exact ⟨it, by simp, by subst hm; exact ⟨rfl, rfl⟩⟩
    | cons it2 rest2 =>
      intro it' hm
      simp only [assignShares, List.mem_cons] at hm
      rcases hm with rfl | hm
      · exact ⟨it, by simp, rfl, rfl⟩
      · obtain ⟨src, hsrc, h1, h2⟩ := ih it' hm
        exact ⟨src, List.mem_cons_of_mem _ hsrc, h1, h2⟩

theorem assignShares_sum (a b : ℚ) (l : List WheelItem) (h : l ≠ []) :
    probSum (assignShares a b l) = a * ((l.length - 1 : ℕ) : ℚ) + b := by
  rw [probSum, assignShares_probs a b l h]
  simp [List.sum_replicate, nsmul_eq_mul, mul_comm]

theorem calculateEqualShare_sum (l : List WheelItem) (h : l ≠ []) :
    probSum (calculateEqualShare l) = 100 := by
  unfold calculateEqualShare
  rw [assignShares_sum _ _ l h]
  ring

theorem calculateEqualShare_length (l : List WheelItem) :
    (calculateEqualShare l).length = l.length := assignShares_length _ _ l

theorem calculateEqualShare_map_proj {β : Type} (F : WheelItem → β)
    (hF : ∀ it q, F { it with probability := q } = F it) (l : List WheelItem) :
    (calculateEqualShare l).map F = l.map F := assignShares_map_proj F hF _ _ l

theorem calculateEqualShare_mem_src (l : List WheelItem) :
    ∀ it' ∈ calculateEqualShare l, ∃ src ∈ l, it'.id = src.id ∧ it'.hidden = src.hidden :=
  assignShares_mem_src _ _ l

/-- Every weight produced by the equal share is a natural number, and it is at
least 1 as soon as at most 100 items share the 100 units. -/
theorem calculateEqualShare_mem_nat (l : List WheelItem) :
    ∀ it' ∈ calculateEqualShare l, ∃ n : ℕ, it'.probability = (n : ℚ) := by
  intro it' hm
  rcases assignShares_mem _ _ l it' hm with h | h
  · exact ⟨100 / l.length, h⟩
  · refine ⟨100 - 100 / l.length * (l.length - 1), ?_⟩
    rw [h]
    have hle : 100 / l.length * (l.length - 1) ≤ 100 :=
      le_trans (Nat.mul_le_mul_left _ (Nat.sub_le _ _)) (Nat.div_mul_le_self 100 l.length)
    push_cast [hle]
    ring

theorem calculateEqualShare_mem_one_le (l : List WheelItem) (h100 : l.length ≤ 100)
    (h1 : 1 ≤ l.length) :
    ∀ it' ∈ calculateEqualShare l, 1 ≤ it'.probability := by
  intro it' hm
  have hshare : 1 ≤ 100 / l.length := (Nat.one_le_div_iff (by omega)).mpr h100
  rcases assignShares_mem _ _ l it' hm with h | h
  · rw [h]; exact_mod_cast hshare
  · rw [h]
    have hmul : 100 / l.length * l.length ≤ 100 := Nat.div_mul_le_self 100 l.length
    have hq : ((100 / l.length : ℕ) : ℚ) * ((l.length - 1 : ℕ) : ℚ) ≤ 99 := by
      have : 100 / l.length * (l.length - 1) ≤ 99 := by
        have := Nat.div_mul_le_self 100 l.length
        have hexp : 100 / l.length * (l.length - 1) + 100 / l.length
            = 100 / l.length * l.length := by
          rw [← Nat.mul_succ]
          congr 1
          omega
        omega
      exact_mod_cast this
    linarith

theorem clampItems_length (l : List WheelItem) : (clampItems l).length = l.length := by
  simp [clampItems]

theorem clampItems_map_proj {β : Type} (F : WheelItem → β)
    (hF : ∀ it q, F { it with probability := q } = F it) (l : List WheelItem) :
    (clampItems l).map F = l.map F := by
  unfold clampItems
  rw [List.map_map]
  exact List.map_congr_left fun it _ => hF it _

theorem clampItems_eq_self (l : List WheelItem) (h : ∀ it ∈ l, 1 ≤ it.probability) :
    clampItems l = l := by
  unfold clampItems
  have : ∀ it ∈ l, { it with probability := max 1 it.probability } = it := by
    intro it hit
    rw [max_eq_right (h it hit)]
  rw [List.map_congr_left this]
  exact List.map_id l

theorem clampItems_mem (l : List WheelItem) :
    ∀ it' ∈ clampItems l, 1 ≤ it'.probability := by
  intro it' hm
  simp only [clampItems, List.mem_map] at hm
  obtain ⟨it, _, rfl⟩ := hm
  exact le_max_left _ _

/-- A list of rationals that are each at least 1 sums to at least its length. -/
theorem length_le_sum (l : List ℚ) (h : ∀ x ∈ l, 1 ≤ x) : (l.length : ℚ) ≤ l.sum := by
  induction l with
  | nil => simp
  | cons x rest ih =>
    have hx := h x (by simp)
    have := ih fun y hy => h y (List.mem_cons_of_mem _ hy)
    simp only [List.length_cons, List.sum_cons]
    push_cast
    linarith

theorem probSum_clampItems_pos (l : List WheelItem) (h : l ≠ []) :
    0 < probSum (clampItems l) := by
  have h1 : (1 : ℚ) ≤ (l.length : ℚ) := by
    have : 1 ≤ l.length := List.length_pos.mpr h
    exact_mod_cast this
  have h2 : ((clampItems l).length : ℚ) ≤ probSum (clampItems l) := by
    rw [probSum]
    have := length_le_sum ((clampItems l).map fun it => it.probability) ?_
    · simpa using this
    · intro x hx
      simp only [List.mem_map] at hx
      obtain ⟨it, hit, rfl⟩ := hx
      exact clampItems_mem l it hit
  rw [clampItems_length] at h2
  linarith

theorem getVisibleItems_map (f : WheelItem → WheelItem) (l : List WheelItem)
    (hf : ∀ it ∈ l, (f it).hidden = it.hidden) :
    getVisibleItems (l.map f) = (getVisibleItems l).map f := by
  unfold getVisibleItems
  rw [List.filter_map]
  congr 1
  exact List.filter_congr fun it hit => by simp [Function.comp, hf it hit]

theorem getVisibleItems_eq_self (l : List WheelItem) (h : NoHidden l) :
    getVisibleItems l = l := by
  unfold getVisibleItems
  exact List.filter_eq_self.mpr fun it hit => by simp [h it hit]

theorem getVisibleItems_mem (l : List WheelItem) :
    ∀ it ∈ getVisibleItems l, it ∈ l ∧ it.hidden = false := by
  intro it hit
  unfold getVisibleItems at hit
  rw [List.mem_filter] at hit
  exact ⟨hit.1, by simpa using hit.2⟩

theorem getVisibleItems_length_le (l : List WheelItem) :
    (getVisibleItems l).length ≤ l.length := List.length_filter_le _ l

theorem getVisibleItems_nodup_ids (l : List WheelItem)
    (h : (l.map fun it => it.id).Nodup) :
    ((getVisibleItems l).map fun it => it.id).Nodup :=
  ((List.filter_sublist l).map fun it => it.id).nodup h

theorem mergeVisible_length (l nv : List WheelItem) :
    (mergeVisible l nv).length = l.length := by simp [mergeVisible]

theorem mergeVisible_map_id (l nv : List WheelItem) :
    (mergeVisible l nv).map (fun it => it.id) = l.map fun it => it.id := by
  unfold mergeVisible
  rw [List.map_map]
  apply List.map_congr_left
  intro it _
  by_cases h : it.hidden
  · simp [h]
  · simp only [Function.comp, h, if_neg, Bool.false_eq_true, if_false]
    cases hfind : nv.find? fun ni => ni.id = it.id with
    | none => rfl
    | some ni =>
      have := List.find?_some hfind
      simp only [decide_eq_true_eq] at this
      simpa using this

theorem mergeVisible_map_hidden (l nv : List WheelItem)
    (hnv : ∀ ni ∈ nv, ni.hidden = false) :
    (mergeVisible l nv).map (fun it => it.hidden) = l.map fun it => it.hidden := by
  unfold mergeVisible
  rw [List.map_map]
  apply List.map_congr_left
  intro it _
  by_cases h : it.hidden
  · simp [h]
  · have h' : it.hidden = false := by simpa using h
    simp only [Function.comp, h', Bool.false_eq_true, if_false]
    cases hfind : nv.find? fun ni => ni.id = it.id with
    | none => simp [h']
    | some ni => simp [hnv ni (List.mem_of_find?_eq_some hfind), h']

theorem mergeVisible_elem_hidden (l nv : List WheelItem)
    (hnv : ∀ ni ∈ nv, ni.hidden = false) :
    ∀ it' ∈ mergeVisible l nv, it'.hidden = true → it' ∈ l := by
  intro it' hm hh
  unfold mergeVisible at hm
  rw [List.mem_map] at hm
  obtain ⟨b, hb, hfb⟩ := hm
  by_cases h : b.hidden
  · rw [if_pos h] at hfb; subst hfb; exact hb
  · rw [if_neg h] at hfb
    cases hfind : nv.find? fun ni => ni.id = b.id with
    | none => rw [hfind] at hfb; subst hfb; exact hb
    | some ni =>
      rw [hfind] at hfb
      simp only [Option.getD_some] at hfb
      subst hfb
      exact absurd hh (by simp [hnv ni (List.mem_of_find?_eq_some hfind)])

theorem mergeVisible_mem (l nv : List WheelItem) :
    ∀ it' ∈ mergeVisible l nv, it' ∈ l ∨ it' ∈ nv := by
  intro it' hm
  unfold mergeVisible at hm
  rw [List.mem_map] at hm
  obtain ⟨b, hb, hfb⟩ := hm
  by_cases h : b.hidden
  · rw [if_pos h] at hfb; subst hfb; exact Or.inl hb
  · rw [if_neg h] at hfb
    cases hfind : nv.find? fun ni => ni.id = b.id with
    | none => rw [hfind] at hfb; subst hfb; exact Or.inl hb
    | some ni =>
      rw [hfind] at hfb
      simp only [Option.getD_some] at hfb
      subst hfb
      exact Or.inr (List.mem_of_find?_eq_some hfind)

/-- Looking every item of vis up by id in a list nv that carries the same ids
in the same order returns exactly nv (ids being unique). -/
theorem map_find_getD_eq (vis : List WheelItem) :
    ∀ nv : List WheelItem, (vis.map fun it => it.id) = (nv.map fun it => it.id) →
    ((vis.map fun it => it.id).Nodup) →
    (vis.map fun it => (nv.find? fun ni => ni.id = it.id).getD it) = nv := by
  induction vis with
  | nil =>
    intro nv hids _
    cases nv with
    | nil => rfl
    | cons n nt => simp at hids
  | cons v vt ih =>
    intro nv hids hnodup
    cases nv with
    | nil => simp at hids
    | cons n nt =>
      simp only [List.map_cons, List.cons.injEq] at hids
      obtain ⟨hvn, htl⟩ := hids
      simp only [List.map_cons]
      congr 1
      · rw [List.find?_cons_of_pos _ (by simp [hvn])]
        rfl
      · have hnd := List.nodup_cons.mp hnodup
        have hstep : (vt.map fun it => ((n :: nt).find? fun ni => ni.id = it.id).getD it)
            = vt.map fun it => (nt.find? fun ni => ni.id = it.id).getD it := by
          apply List.map_congr_left
          intro a ha
          rw [List.find?_cons_of_neg]
          simp only [decide_eq_true_eq]
          intro hna
          exact hnd.1 (by show v.id ∈ _; rw [hvn, hna]; exact List.mem_map_of_mem _ ha)
        rw [hstep]
        exact ih nt htl hnd.2

/-- After the merge, the visible items are exactly the equal-share list. -/
theorem getVisible_mergeVisible (l : List WheelItem)
    (hnodup : (l.map fun it => it.id).Nodup) :
    getVisibleItems (mergeVisible l (calculateEqualShare (getVisibleItems l)))
      = calculateEqualShare (getVisibleItems l) := by
  set vis := getVisibleItems l with hvis
  set nv := calculateEqualShare vis with hnv
  have hnvhid : ∀ ni ∈ nv, ni.hidden = false := by
    intro ni hni
    obtain ⟨src, hsrc, _, hhid⟩ := calculateEqualShare_mem_src vis ni hni
    rw [hhid]
    exact (getVisibleItems_mem l src hsrc).2
  have hids : (vis.map fun it => it.id) = nv.map fun it => it.id := by
    rw [hnv, calculateEqualShare_map_proj (fun it => it.id) (fun _ _ => rfl) vis]
  have hvnodup : (vis.map fun it => it.id).Nodup := getVisibleItems_nodup_ids l hnodup
  have hpres : ∀ it ∈ l,
      ((fun it : WheelItem => if it.hidden then it
        else (nv.find? fun ni => ni.id = it.id).getD it) it).hidden = it.hidden := by
    intro it _
    by_cases h : it.hidden
    · simp [h]
    · have h' : it.hidden = false := by simpa using h
      simp only [h', Bool.false_eq_true, if_false]
      cases hfind : nv.find? fun ni => ni.id = it.id with
      | none => simp [h']
      | some ni => simp [hnvhid ni (List.mem_of_find?_eq_some hfind), h']
  have hcomm : getVisibleItems (mergeVisible l nv)
      = vis.map fun it => (nv.find? fun ni => ni.id = it.id).getD it := by
    unfold mergeVisible
    rw [getVisibleItems_map _ l hpres]
    apply List.map_congr_left
    intro it hit
    rw [if_neg]
    simp [(getVisibleItems_mem l it hit).2]
  rw [hcomm]
  exact map_find_getD_eq vis nv hids hvnodup

/-! ### Equations for the branches of normalizeProbabilities -/

theorem normalize_eq_of_total_zero (l : List WheelItem) (fixedId : Option String)
    (h : probSum (clampItems l) = 0) :
    normalizeProbabilities l fixedId = clampItems l := by
  unfold normalizeProbabilities
  simp only [h, if_true, if_pos]

theorem normalize_none_eq (l : List WheelItem) (h : probSum (clampItems l) ≠ 0) :
    normalizeProbabilities l none = proportionalAdjust (clampItems l) (probSum (clampItems l)) := by
  unfold normalizeProbabilities
  simp only [if_neg h]

theorem normalize_some_eq_notfound (l : List WheelItem) (fid : String)
    (h : probSum (clampItems l) ≠ 0)
    (hfind : (clampItems l).find? (fun it => it.id = fid) = none) :
    normalizeProbabilities l (some fid) = clampItems l := by
  unfold normalizeProbabilities
  simp only [if_neg h, hfind]

theorem normalize_some_eq_found (l : List WheelItem) (fid : String) (fx : WheelItem)
    (h : probSum (clampItems l) ≠ 0)
    (hfind : (clampItems l).find? (fun it => it.id = fid) = some fx) :
    normalizeProbabilities l (some fid) = pinnedAdjust (clampItems l) fid fx := by
  unfold normalizeProbabilities
  simp only [if_neg h, hfind]

/-! ### Rounding and sum bounds -/

/-- The clamped JS rounding max 1 (Math.round x) stays within 1 of any
positive x. -/
theorem clamp_round_close (x : ℚ) (hx : 0 < x) :
    |max 1 ((jsRound x : ℤ) : ℚ) - x| ≤ 1 := by
  unfold jsRound
  have hfl : ((⌊x + 1 / 2⌋ : ℤ) : ℚ) ≤ x + 1 / 2 := Int.floor_le _
  have hfg : x + 1 / 2 - 1 < ((⌊x + 1 / 2⌋ : ℤ) : ℚ) := Int.sub_one_lt_floor _
  by_cases h : (1 : ℚ) ≤ ((⌊x + 1 / 2⌋ : ℤ) : ℚ)
  · rw [max_eq_right h, abs_le]
    constructor <;> linarith
  · rw [max_eq_left (le_of_not_le h), abs_le]
    have hle : ((⌊x + 1 / 2⌋ : ℤ) : ℚ) ≤ 0 := by
      have h1 : ⌊x + 1 / 2⌋ < 1 := by exact_mod_cast lt_of_not_le h
      have h0 : ⌊x + 1 / 2⌋ ≤ 0 := by omega
      exact_mod_cast h0
    constructor <;> linarith

/-- Sums of two pointwise-close maps differ by at most the length. -/
theorem sum_map_close {α : Type} (l : List α) (f g : α → ℚ)
    (h : ∀ a ∈ l, |f a - g a| ≤ 1) :
    |(l.map f).sum - (l.map g).sum| ≤ (l.length : ℚ) := by
  induction l with
  | nil => simp
  | cons a rest ih =>
    simp only [List.map_cons, List.sum_cons, List.length_cons]
    have h1 := h a (by simp)
    have h2 := ih fun b hb => h b (List.mem_cons_of_mem _ hb)
    have heq : f a + (rest.map f).sum - (g a + (rest.map g).sum)
        = (f a - g a) + ((rest.map f).sum - (rest.map g).sum) := by ring
    rw [heq]
    have habs := abs_add (f a - g a) ((rest.map f).sum - (rest.map g).sum)
    push_cast
    linarith

/-- Splitting the sum of an id-conditional map over the two filters. -/
theorem sum_map_ite_id (l : List WheelItem) (fid : String) (f g : WheelItem → ℚ) :
    (l.map fun it => if it.id = fid then f it else g it).sum
      = ((l.filter fun it => it.id = fid).map f).sum
        + ((l.filter fun it => it.id ≠ fid).map g).sum := by
  induction l with
  | nil => simp
  | cons a rest ih =>
    by_cases h : a.id = fid
    · simp [List.filter_cons, h, ih]
      ring
    · simp [List.filter_cons, h, ih]
      ring

/-- Under unique ids, the id-match filter is the singleton of the match. -/
theorem filter_id_singleton (l : List WheelItem) (fid : String)
    (hnodup : (l.map fun it => it.id).Nodup) (fx : WheelItem) (hfx : fx ∈ l)
    (hid : fx.id = fid) :
    (l.filter fun it => it.id = fid) = [fx] := by
  induction l with
  | nil => cases hfx
  | cons a rest ih =>
    rw [List.map_cons, List.nodup_cons] at hnodup
    rcases List.mem_cons.mp hfx with rfl | hmem
    · rw [List.filter_cons_of_pos (by simpa using hid)]
      have hrest : ∀ it ∈ rest, ¬(it.id = fid) := by
        intro it hit heq
        exact hnodup.1 (by rw [hid, ← heq]; exact List.mem_map_of_mem _ hit)
      have : rest.filter (fun it => decide (it.id = fid)) = [] :=
        List.filter_eq_nil_iff.mpr fun it hit => by simpa using hrest it hit
      rw [this]
    · have hane : ¬(a.id = fid) := by
        intro ha
        exact hnodup.1 (by rw [ha, ← hid]; exact List.mem_map_of_mem _ hmem)
      rw [List.filter_cons_of_neg (by simpa using hane)]
      exact ih hnodup.2 hmem

/-- The lengths of the two id filters partition the length. -/
theorem filter_id_lengths (l : List WheelItem) (fid : String) :
    (l.filter fun it => it.id = fid).length + (l.filter fun it => it.id ≠ fid).length
      = l.length := by
  induction l with
  | nil => rfl
  | cons a rest ih =>
    by_cases h : a.id = fid
    · rw [List.filter_cons_of_pos (by simp [h]), List.filter_cons_of_neg (by simp [h])]
      simp only [List.length_cons]
      omega
    · rw [List.filter_cons_of_neg (by simp [h]), List.filter_cons_of_pos (by simp [h])]
      simp only [List.length_cons]
      omega

/-! ### Field preservation and pointwise facts of the normalizer -/

theorem proportionalAdjust_map_proj {β : Type} (F : WheelItem → β)
    (hF : ∀ it q, F { it with probability := q } = F it) (l : List WheelItem) (t : ℚ) :
    (proportionalAdjust l t).map F = l.map F := by
  unfold proportionalAdjust
  rw [List.map_map]
  exact List.map_congr_left fun it _ => hF it _

theorem pinnedAdjust_map_proj {β : Type} (F : WheelItem → β)
    (hF : ∀ it q, F { it with probability := q } = F it) (l : List WheelItem)
    (fid : String) (fx : WheelItem) :
    (pinnedAdjust l fid fx).map F = l.map F := by
  unfold pinnedAdjust
  rw [List.map_map]
  apply List.map_congr_left
  intro it _
  by_cases h : it.id = fid
  · simp only [Function.comp, if_pos h]
  · simp only [Function.comp, if_neg h]
    exact hF it _

theorem normalize_map_proj {β : Type} (F : WheelItem → β)
    (hF : ∀ it q, F { it with probability := q } = F it) (l : List WheelItem)
    (fixedId : Option String) :
    (normalizeProbabilities l fixedId).map F = l.map F := by
  by_cases hT : probSum (clampItems l) = 0
  · rw [normalize_eq_of_total_zero l fixedId hT]
    exact clampItems_map_proj F hF l
  · cases fixedId with
    | none =>
      rw [normalize_none_eq l hT, proportionalAdjust_map_proj F hF]
      exact clampItems_map_proj F hF l
    | some fid =>
      cases hfind : (clampItems l).find? fun it => it.id = fid with
      | none =>
        rw [normalize_some_eq_notfound l fid hT hfind]
        exact clampItems_map_proj F hF l
      | some fx =>
        rw [normalize_some_eq_found l fid fx hT hfind, pinnedAdjust_map_proj F hF]
        exact clampItems_map_proj F hF l

theorem normalize_length (l : List WheelItem) (fixedId : Option String) :
    (normalizeProbabilities l fixedId).length = l.length := by
  have h := normalize_map_proj (fun it => it.id) (fun _ _ => rfl) l fixedId
  have := congrArg List.length h
  simpa using this

/-- Every weight the normalizer outputs is at least 1, in every mode. -/
theorem normalize_mem_one_le (l : List WheelItem) (fixedId : Option String) :
    ∀ it' ∈ normalizeProbabilities l fixedId, 1 ≤ it'.probability := by
  intro it' hm
  by_cases hT : probSum (clampItems l) = 0
  · rw [normalize_eq_of_total_zero l fixedId hT] at hm
    exact clampItems_mem l it' hm
  · cases fixedId with
    | none =>
      rw [normalize_none_eq l hT] at hm
      unfold proportionalAdjust at hm
      rw [List.mem_map] at hm
      obtain ⟨b, _, rfl⟩ := hm
      exact le_max_left _ _
    | some fid =>
      cases hfind : (clampItems l).find? fun it => it.id = fid with
      | none =>
        rw [normalize_some_eq_notfound l fid hT hfind] at hm
        exact clampItems_mem l it' hm
      | some fx =>
        rw [normalize_some_eq_found l fid fx hT hfind] at hm
        unfold pinnedAdjust at hm
        rw [List.mem_map] at hm
        obtain ⟨b, hb, rfl⟩ := hm
        by_cases h : b.id = fid
        · rw [if_pos h]
          exact clampItems_mem l b hb
        · rw [if_neg h]
          exact le_max_left _ _

/-- A clamped rounded integer is a natural number cast. -/
theorem exists_nat_max_one_int (z : ℤ) : ∃ n : ℕ, max 1 ((z : ℤ) : ℚ) = (n : ℚ) := by
  refine ⟨(max 1 z).toNat, ?_⟩
  have h0 : (0 : ℤ) ≤ max 1 z := le_trans (by norm_num) (le_max_left _ _)
  have : ((max 1 z).toNat : ℤ) = max 1 z := Int.toNat_of_nonneg h0
  have hq : (((max 1 z).toNat : ℤ) : ℚ) = ((max 1 z : ℤ) : ℚ) := by exact_mod_cast this
  push_cast at hq ⊢
  linarith [hq]

theorem exists_nat_max_one_nat (n : ℕ) : max 1 ((n : ℕ) : ℚ) = ((max 1 n : ℕ) : ℚ) := by
  push_cast
  rfl

/-- The normalizer maps natural-number weights to natural-number weights. -/
theorem normalize_mem_nat (l : List WheelItem) (fixedId : Option String)
    (hint : ∀ it ∈ l, ∃ n : ℕ, it.probability = (n : ℚ)) :
    ∀ it' ∈ normalizeProbabilities l fixedId, ∃ n : ℕ, it'.probability = (n : ℚ) := by
  have hclamp : ∀ it' ∈ clampItems l, ∃ n : ℕ, it'.probability = (n : ℚ) := by
    intro it' hm
    unfold clampItems at hm
    rw [List.mem_map] at hm
    obtain ⟨b, hb, rfl⟩ := hm
    obtain ⟨n, hn⟩ := hint b hb
    exact ⟨max 1 n, by simp only [hn, exists_nat_max_one_nat]⟩
  intro it' hm
  by_cases hT : probSum (clampItems l) = 0
  · rw [normalize_eq_of_total_zero l fixedId hT] at hm
    exact hclamp it' hm
  · cases fixedId with
    | none =>
      rw [normalize_none_eq l hT] at hm
      unfold proportionalAdjust at hm
      rw [List.mem_map] at hm
      obtain ⟨b, _, rfl⟩ := hm
      exact exists_nat_max_one_int _
    | some fid =>
      cases hfind : (clampItems l).find? fun it => it.id = fid with
      | none =>
        rw [normalize_some_eq_notfound l fid hT hfind] at hm
        exact hclamp it' hm
      | some fx =>
        rw [normalize_some_eq_found l fid fx hT hfind] at hm
        unfold pinnedAdjust at hm
        rw [List.mem_map] at hm
        obtain ⟨b, hb, rfl⟩ := hm
        by_cases h : b.id = fid
        · rw [if_pos h]
          exact hclamp b hb
        · rw [if_neg h]
          exact exists_nat_max_one_int _

/-! ### Sum bounds for the two normalizer modes -/

theorem probSum_def (l : List WheelItem) :
    probSum l = (l.map fun it => it.probability).sum := rfl

theorem one_le_probLen (l : List WheelItem) (hpos : ∀ it ∈ l, 1 ≤ it.probability) :
    (l.length : ℚ) ≤ probSum l := by
  rw [probSum_def]
  have h := length_le_sum (l.map fun it => it.probability) ?_
  · simpa using h
  · intro x hx
    rw [List.mem_map] at hx
    obtain ⟨b, hb, rfl⟩ := hx
    exact hpos b hb

/-- Proportional mode: the resulting total is within the item count of 100. -/
theorem proportionalAdjust_sum_close (l : List WheelItem)
    (hpos : ∀ it ∈ l, 1 ≤ it.probability) (hne : l ≠ []) :
    |probSum (proportionalAdjust l (probSum l)) - 100| ≤ (l.length : ℚ) := by
  have hlen1 : (1 : ℚ) ≤ (l.length : ℚ) := by
    have h := List.length_pos.mpr hne
    exact_mod_cast h
  have hT : (l.length : ℚ) ≤ probSum l := one_le_probLen l hpos
  have hTpos : 0 < probSum l := lt_of_lt_of_le (by linarith) hT
  have hmap : probSum (proportionalAdjust l (probSum l))
      = (l.map fun it =>
          max 1 ((jsRound (it.probability / probSum l * 100) : ℤ) : ℚ)).sum := by
    unfold proportionalAdjust
    rw [probSum_def, List.map_map]
    rfl
  have hexact : (l.map fun it => it.probability / probSum l * 100).sum = 100 := by
    have hcongr : (l.map fun it => it.probability / probSum l * 100)
        = l.map fun it => it.probability * (100 / probSum l) :=
      List.map_congr_left fun it _ => by ring
    rw [hcongr, List.sum_map_mul_right, ← probSum_def]
    field_simp
  have hclose : |(l.map fun it =>
        max 1 ((jsRound (it.probability / probSum l * 100) : ℤ) : ℚ)).sum
      - (l.map fun it => it.probability / probSum l * 100).sum| ≤ (l.length : ℚ) := by
    apply sum_map_close
    intro it hit
    apply clamp_round_close
    have hp := hpos it hit
    positivity
  rw [hexact] at hclose
  rw [hmap]
  exact hclose

/-- Pinned mode: with unique ids and a found fixed item of weight below 100,
the resulting total is within (item count - 1) of 100. -/
theorem pinnedAdjust_sum_close (l : List WheelItem) (fid : String) (fx : WheelItem)
    (hpos : ∀ it ∈ l, 1 ≤ it.probability)
    (hnodup : (l.map fun it => it.id).Nodup)
    (hfx : fx ∈ l) (hfxid : fx.id = fid) (hfxlt : fx.probability < 100)
    (hlen : 2 ≤ l.length) :
    |probSum (pinnedAdjust l fid fx) - 100| ≤ (l.length : ℚ) - 1 := by
  have hsing : (l.filter fun it => it.id = fid) = [fx] :=
    filter_id_singleton l fid hnodup fx hfx hfxid
  have hlenpart := filter_id_lengths l fid
  rw [hsing] at hlenpart
  simp only [List.length_singleton] at hlenpart
  have hotherlen : (l.filter fun it => it.id ≠ fid).length = l.length - 1 := by omega
  have hotherpos : ∀ it ∈ (l.filter fun it => it.id ≠ fid), 1 ≤ it.probability :=
    fun it hit => hpos it (List.mem_of_mem_filter hit)
  have hOTlen : (((l.filter fun it => it.id ≠ fid).length : ℕ) : ℚ)
      ≤ probSum (l.filter fun it => it.id ≠ fid) :=
    one_le_probLen _ hotherpos
  have hotherlen1 : 1 ≤ (l.filter fun it => it.id ≠ fid).length := by omega
  have hOTpos : 0 < probSum (l.filter fun it => it.id ≠ fid) := by
    have h1 : (1 : ℚ) ≤ (((l.filter fun it => it.id ≠ fid).length : ℕ) : ℚ) := by
      exact_mod_cast hotherlen1
    linarith
  have hOTne : ((l.filter fun it => it.id ≠ fid).map fun it => it.probability).sum ≠ 0 := by
    rw [← probSum_def]
    exact ne_of_gt hOTpos
  have hR : 0 < 100 - fx.probability := by linarith
  -- the sum of the pinned adjustment, split over the two filters
  have hmap : probSum (pinnedAdjust l fid fx)
      = (l.map fun it => if it.id = fid then it.probability
          else max 1 ((jsRound ((100 - fx.probability) *
            (it.probability / probSum (l.filter fun it => it.id ≠ fid))) : ℤ) : ℚ)).sum := by
    unfold pinnedAdjust
    rw [probSum_def, List.map_map]
    apply congrArg
    apply List.map_congr_left
    intro it _
    by_cases h : it.id = fid
    · simp only [Function.comp, if_pos h]
    · simp only [Function.comp, if_neg h]
      rw [if_neg hOTne]
      rfl
  rw [hmap, sum_map_ite_id l fid _ _, hsing]
  simp only [List.map_singleton, List.sum_singleton]
  have hexact : ((l.filter fun it => it.id ≠ fid).map fun it =>
      (100 - fx.probability) * (it.probability / probSum (l.filter fun it => it.id ≠ fid))).sum
      = 100 - fx.probability := by
    have hcongr : ((l.filter fun it => it.id ≠ fid).map fun it =>
        (100 - fx.probability) * (it.probability / probSum (l.filter fun it => it.id ≠ fid)))
        = (l.filter fun it => it.id ≠ fid).map fun it =>
          it.probability * ((100 - fx.probability) / probSum (l.filter fun it => it.id ≠ fid)) :=
      List.map_congr_left fun it _ => by ring
    rw [hcongr, List.sum_map_mul_right, ← probSum_def, mul_comm,
      div_mul_cancel₀ _ (ne_of_gt hOTpos)]
  have hclose : |((l.filter fun it => it.id ≠ fid).map fun it =>
        max 1 ((jsRound ((100 - fx.probability) *
          (it.probability / probSum (l.filter fun it => it.id ≠ fid))) : ℤ) : ℚ)).sum
      - ((l.filter fun it => it.id ≠ fid).map fun it =>
        (100 - fx.probability) * (it.probability / probSum (l.filter fun it => it.id ≠ fid))).sum|
      ≤ (((l.filter fun it => it.id ≠ fid).length : ℕ) : ℚ) := by
    apply sum_map_close
    intro it hit
    apply clamp_round_close
    have hp := hotherpos it hit
    have := hOTpos
    positivity
  rw [hexact] at hclose
  have hcast : (((l.filter fun it => it.id ≠ fid).length : ℕ) : ℚ) = (l.length : ℚ) - 1 := by
    rw [hotherlen]
    have h2 : (2 : ℕ) ≤ l.length := hlen
    push_cast [Nat.cast_sub (by omega : 1 ≤ l.length)]
    ring
  rw [hcast] at hclose
  calc |fx.probability + ((l.filter fun it => it.id ≠ fid).map fun it =>
        max 1 ((jsRound ((100 - fx.probability) *
          (it.probability / probSum (l.filter fun it => it.id ≠ fid))) : ℤ) : ℚ)).sum - 100|
      = |((l.filter fun it => it.id ≠ fid).map fun it =>
        max 1 ((jsRound ((100 - fx.probability) *
          (it.probability / probSum (l.filter fun it => it.id ≠ fid))) : ℤ) : ℚ)).sum
        - (100 - fx.probability)| := by
        apply congrArg
        ring
    _ ≤ (l.length : ℚ) - 1 := hclose

theorem clampItems_ne_nil (l : List WheelItem) (hne : l ≠ []) : clampItems l ≠ [] := by
  intro hc
  apply hne
  have h := congrArg List.length hc
  rw [clampItems_length] at h
  exact List.length_eq_zero.mp h

/-- Proportional normalization lands within the item count of 100. -/
theorem normalize_none_sum_close (l : List WheelItem) (hne : l ≠ []) :
    |probSum (normalizeProbabilities l none) - 100| ≤ (l.length : ℚ) := by
  have hT : 0 < probSum (clampItems l) := probSum_clampItems_pos l hne
  rw [normalize_none_eq l hT.ne']
  have h := proportionalAdjust_sum_close (clampItems l) (clampItems_mem l)
    (clampItems_ne_nil l hne)
  rw [clampItems_length] at h
  exact h

/-- An id present among the ids is found by find?. -/
theorem find?_id_mem (l : List WheelItem) (fid : String)
    (h : fid ∈ l.map fun it => it.id) :
    ∃ fx ∈ l, (l.find? fun it => it.id = fid) = some fx ∧ fx.id = fid := by
  induction l with
  | nil => simp at h
  | cons a rest ih =>
    by_cases ha : a.id = fid
    · exact ⟨a, by simp, List.find?_cons_of_pos _ (by simp [ha]), ha⟩
    · rw [List.map_cons, List.mem_cons] at h
      rcases h with h | h
      · exact absurd h.symm ha
      · obtain ⟨fx, hfx, hf, hid⟩ := ih h
        exact ⟨fx, List.mem_cons_of_mem _ hfx,
          by rw [List.find?_cons_of_neg _ (by simp [ha])]; exact hf, hid⟩

/-- Clamping a list where every weight is at least 0 raises the total by at
most the length. -/
theorem probSum_clampItems_close (l : List WheelItem)
    (h : ∀ it ∈ l, 0 ≤ it.probability) :
    |probSum (clampItems l) - probSum l| ≤ (l.length : ℚ) := by
  have hmap : probSum (clampItems l) = (l.map fun it => max 1 it.probability).sum := by
    unfold clampItems
    rw [probSum_def, List.map_map]
    rfl
  rw [hmap, probSum_def]
  apply sum_map_close
  intro it hit
  have h0 := h it hit
  rw [abs_le]
  constructor
  · have := le_max_right (1 : ℚ) it.probability
    linarith
  · have h1 : max 1 it.probability ≤ it.probability + 1 := by
      apply max_le <;> linarith
    linarith

/-! ### updateProbability -/

theorem updateProbability_eq (items : List WheelItem) (id : String) (value : ℚ) :
    updateProbability items id value
      = normalizeProbabilities
          (items.map fun it =>
            if it.id = id then { it with probability := max 1 (min 99 value) } else it)
          (some id) := rfl

theorem updItems_map_proj {β : Type} (F : WheelItem → β)
    (hF : ∀ it q, F { it with probability := q } = F it)
    (items : List WheelItem) (id : String) (value : ℚ) :
    ((items.map fun it =>
        if it.id = id then { it with probability := max 1 (min 99 value) } else it).map F)
      = items.map F := by
  rw [List.map_map]
  apply List.map_congr_left
  intro it _
  by_cases h : it.id = id
  · simp only [Function.comp, if_pos h]
    exact hF it _
  · simp only [Function.comp, if_neg h]

/-- When the id is absent, updateProbability only clamps. -/
theorem updateProbability_notfound (items : List WheelItem) (id : String) (value : ℚ)
    (h : id ∉ items.map fun it => it.id) :
    updateProbability items id value = clampItems items := by
  rw [updateProbability_eq]
  have hupd : (items.map fun it =>
      if it.id = id then { it with probability := max 1 (min 99 value) } else it) = items := by
    have : ∀ it ∈ items, (if it.id = id then
        { it with probability := max 1 (min 99 value) } else it) = it := by
      intro it hit
      rw [if_neg]
      intro heq
      exact h (heq ▸ List.mem_map_of_mem _ hit)
    rw [List.map_congr_left this]
    exact List.map_id items
  rw [hupd]
  by_cases hT : probSum (clampItems items) = 0
  · exact normalize_eq_of_total_zero items (some id) hT
  · apply normalize_some_eq_notfound items id hT
    rw [List.find?_eq_none]
    intro a ha
    simp only [decide_eq_true_eq]
    intro heq
    apply h
    rw [← heq]
    have : (clampItems items).map (fun it => it.id) = items.map fun it => it.id :=
      clampItems_map_proj (fun it => it.id) (fun _ _ => rfl) items
    rw [← this]
    exact List.mem_map_of_mem _ ha

/-- When the id is present (ids unique, at least two items), the pinned
normalization lands within (count - 1) of 100. -/
theorem updateProbability_sum_close (items : List WheelItem) (id : String) (value : ℚ)
    (hnodup : (items.map fun it => it.id).Nodup)
    (hlen : 2 ≤ items.length) (hmem : id ∈ items.map fun it => it.id) :
    |probSum (updateProbability items id value) - 100| ≤ (items.length : ℚ) - 1 := by
  rw [updateProbability_eq]
  set upd := items.map fun it =>
    if it.id = id then { it with probability := max 1 (min 99 value) } else it with hupd
  have hids : upd.map (fun it => it.id) = items.map fun it => it.id :=
    updItems_map_proj (fun it => it.id) (fun _ _ => rfl) items id value
  have hclampids : (clampItems upd).map (fun it => it.id) = items.map fun it => it.id := by
    rw [clampItems_map_proj (fun it => it.id) (fun _ _ => rfl) upd]
    exact hids
  have hlenupd : upd.length = items.length := by simp [hupd]
  have hne : upd ≠ [] := by
    intro hc
    rw [hc] at hlenupd
    simp at hlenupd
    omega
  have hT : 0 < probSum (clampItems upd) := probSum_clampItems_pos upd hne
  have hmem' : id ∈ (clampItems upd).map fun it => it.id := by rw [hclampids]; exact hmem
  obtain ⟨fx, hfxmem, hfind, hfxid⟩ := find?_id_mem (clampItems upd) id hmem'
  rw [normalize_some_eq_found upd id fx hT.ne' hfind]
  have hfxlt : fx.probability < 100 := by
    have hfxmem2 := hfxmem
    unfold clampItems at hfxmem2
    rw [List.mem_map] at hfxmem2
    obtain ⟨b, hb, hbeq⟩ := hfxmem2
    have hbid : b.id = id := by rw [← hbeq] at hfxid; exact hfxid
    have hfxp : fx.probability = max 1 b.probability := by rw [← hbeq]
    rw [hupd, List.mem_map] at hb
    obtain ⟨c, _, hceq⟩ := hb
    by_cases h : c.id = id
    · rw [if_pos h] at hceq
      have hbp : b.probability = max 1 (min 99 value) := by rw [← hceq]
      have h99 : max 1 (min 99 value) ≤ 99 := max_le (by norm_num) (min_le_left _ _)
      have hmax : max (1 : ℚ) (max 1 (min 99 value)) = max 1 (min 99 value) :=
        max_eq_right (le_max_left _ _)
      rw [hfxp, hbp, hmax]
      linarith
    · rw [if_neg h] at hceq
      rw [← hceq] at hbid
      exact absurd hbid h
  have hcnodup : ((clampItems upd).map fun it => it.id).Nodup := by
    rw [hclampids]
    exact hnodup
  have hclen : 2 ≤ (clampItems upd).length := by
    rw [clampItems_length, hlenupd]
    exact hlen
  have hclose := pinnedAdjust_sum_close (clampItems upd) id fx (clampItems_mem upd)
    hcnodup hfxmem hfxid hfxlt hclen
  rw [clampItems_length, hlenupd] at hclose
  exact hclose

/-! ### The reachable-state invariant -/

theorem noHidden_iff_map (l : List WheelItem) :
    NoHidden l ↔ ∀ b ∈ l.map fun it => it.hidden, b = false := by
  constructor
  · intro h b hb
    rw [List.mem_map] at hb
    obtain ⟨it, hit, rfl⟩ := hb
    exact h it hit
  · intro h it hit
    exact h _ (List.mem_map_of_mem _ hit)

theorem ces_vis_hidden_false (u : List WheelItem) :
    ∀ ni ∈ calculateEqualShare (getVisibleItems u), ni.hidden = false := by
  intro ni hni
  obtain ⟨src, hsrc, _, hhid⟩ := calculateEqualShare_mem_src (getVisibleItems u) ni hni
  rw [hhid]
  exact (getVisibleItems_mem u src hsrc).2

/-- Normalizing any two-or-more list with unique ids in proportional mode
yields an invariant state. -/
theorem normalize_none_inv (l : List WheelItem) (hlen : 2 ≤ l.length)
    (hnodup : (l.map fun it => it.id).Nodup) : Inv (normalizeProbabilities l none) := by
  have hne : l ≠ [] := by
    intro h
    rw [h] at hlen
    simp at hlen
  refine ⟨?_, ?_, ?_, ?_⟩
  · rw [normalize_length]
    exact hlen
  · rw [normalize_map_proj (fun it => it.id) (fun _ _ => rfl)]
    exact hnodup
  · intro it hit
    linarith [normalize_mem_one_le l none it hit]
  · intro _
    right
    refine ⟨normalize_mem_one_le l none, ?_⟩
    rw [normalize_length]
    exact normalize_none_sum_close l hne

theorem addItem_inv (s : List WheelItem) (label newId : String) (hInv : Inv s)
    (hfresh : newId ∉ s.map fun it => it.id) : Inv (addItem s label newId) := by
  obtain ⟨hlen, hnodup, hnn, hgood⟩ := hInv
  unfold addItem
  by_cases hl : label.trim = ""
  · rw [if_pos hl]
    exact ⟨hlen, hnodup, hnn, hgood⟩
  · rw [if_neg hl]
    apply normalize_none_inv
    · rw [List.length_append]
      simp
      omega
    · rw [List.map_append]
      rw [List.nodup_append]
      refine ⟨hnodup, List.nodup_singleton _, ?_⟩
      intro a ha hb
      simp only [List.map_cons, List.map_nil, List.mem_singleton] at hb
      subst hb
      exact hfresh ha

theorem noHidden_of_clamp (s : List WheelItem) (h : NoHidden (clampItems s)) :
    NoHidden s := by
  intro it hit
  have hmem : ({ it with probability := max 1 it.probability } : WheelItem)
      ∈ clampItems s := List.mem_map_of_mem _ hit
  exact h { it with probability := max 1 it.probability } hmem

theorem updateProbability_inv (s : List WheelItem) (id : String) (v : ℚ)
    (hInv : Inv s) : Inv (updateProbability s id v) := by
  obtain ⟨hlen, hnodup, hnn, hgood⟩ := hInv
  by_cases hmem : id ∈ s.map fun it => it.id
  · refine ⟨?_, ?_, ?_, ?_⟩
    · rw [updateProbability_eq, normalize_length, List.length_map]
      exact hlen
    · rw [updateProbability_eq, normalize_map_proj (fun it => it.id) (fun _ _ => rfl),
        updItems_map_proj (fun it => it.id) (fun _ _ => rfl)]
      exact hnodup
    · intro it hit
      rw [updateProbability_eq] at hit
      linarith [normalize_mem_one_le _ _ it hit]
    · intro _
      right
      refine ⟨?_, ?_⟩
      · intro it hit
        rw [updateProbability_eq] at hit
        exact normalize_mem_one_le _ _ it hit
      · have h := updateProbability_sum_close s id v hnodup hlen hmem
        rw [updateProbability_eq] at h
        rw [updateProbability_eq, normalize_length, List.length_map]
        linarith
  · rw [updateProbability_notfound s id v hmem]
    refine ⟨?_, ?_, ?_, ?_⟩
    · rw [clampItems_length]
      exact hlen
    · rw [clampItems_map_proj (fun it => it.id) (fun _ _ => rfl)]
      exact hnodup
    · intro it hit
      linarith [clampItems_mem s it hit]
    · intro hnh
      rcases hgood (noHidden_of_clamp s hnh) with h100 | ⟨h1, hb⟩
      · right
        refine ⟨clampItems_mem s, ?_⟩
        have hclose := probSum_clampItems_close s hnn
        rw [clampItems_length]
        calc |probSum (clampItems s) - 100|
            ≤ |probSum (clampItems s) - probSum s| + |probSum s - 100| :=
              abs_sub_le _ _ _
          _ ≤ (s.length : ℚ) + 0 := by
              have hz : |probSum s - 100| = 0 := by
                rw [h100]
                simp
              rw [hz]
              exact add_le_add hclose le_rfl
          _ = (s.length : ℚ) := by ring
      · rw [clampItems_eq_self s h1]
        exact Or.inr ⟨h1, hb⟩

theorem filter_ne_id_length_ge (l : List WheelItem) (id : String)
    (hnodup : (l.map fun it => it.id).Nodup) :
    l.length - 1 ≤ (l.filter fun it => it.id ≠ id).length := by
  have hpart := filter_id_lengths l id
  by_cases hmem : id ∈ l.map fun it => it.id
  · obtain ⟨fx, hfx, hfxid⟩ : ∃ fx ∈ l, fx.id = id := by
      rw [List.mem_map] at hmem
      obtain ⟨fx, hfx, heq⟩ := hmem
      exact ⟨fx, hfx, heq⟩
    rw [filter_id_singleton l id hnodup fx hfx hfxid] at hpart
    simp only [List.length_singleton] at hpart
    omega
  · have hz : (l.filter fun it => it.id = id) = [] := by
      rw [List.filter_eq_nil_iff]
      intro a ha
      simp only [decide_eq_true_eq]
      intro heq
      exact hmem (heq ▸ List.mem_map_of_mem _ ha)
    rw [hz] at hpart
    simp only [List.length_nil] at hpart
    omega

theorem removeItem_noop (items : List WheelItem) (id : String)
    (h : items.length ≤ 2) : removeItem items id = items := by
  unfold removeItem
  rw [if_pos h]

theorem removeItem_eq (items : List WheelItem) (id : String)
    (h : ¬items.length ≤ 2) :
    removeItem items id
      = mergeVisible (items.filter fun it => it.id ≠ id)
          (calculateEqualShare (getVisibleItems (items.filter fun it => it.id ≠ id))) := by
  unfold removeItem
  rw [if_neg h]

theorem toggleItemVisibility_eq (items : List WheelItem) (id : String) :
    toggleItemVisibility items id
      = mergeVisible
          (items.map fun it => if it.id = id then { it with hidden := !it.hidden } else it)
          (calculateEqualShare (getVisibleItems
            (items.map fun it =>
              if it.id = id then { it with hidden := !it.hidden } else it))) := rfl

/-- The equal-share merge from any base list keeps the invariant. -/
theorem merge_inv (u : List WheelItem) (hnodup : (u.map fun it => it.id).Nodup)
    (hlen : 2 ≤ u.length) (hnn : ∀ it ∈ u, 0 ≤ it.probability) :
    Inv (mergeVisible u (calculateEqualShare (getVisibleItems u))) := by
  have hnvhid := ces_vis_hidden_false u
  refine ⟨?_, ?_, ?_, ?_⟩
  · rw [mergeVisible_length]
    exact hlen
  · rw [mergeVisible_map_id]
    exact hnodup
  · intro it hit
    rcases mergeVisible_mem u _ it hit with h | h
    · exact hnn it h
    · obtain ⟨n, hn⟩ := calculateEqualShare_mem_nat _ it h
      rw [hn]
      positivity
  · intro hnh
    left
    have hnhu : NoHidden u := by
      rw [noHidden_iff_map, ← mergeVisible_map_hidden u _ hnvhid]
      exact (noHidden_iff_map _).mp hnh
    have hself := getVisibleItems_eq_self _ hnh
    have hvm := getVisible_mergeVisible u hnodup
    rw [← hself, hvm]
    apply calculateEqualShare_sum
    rw [getVisibleItems_eq_self u hnhu]
    intro hc
    rw [hc] at hlen
    simp at hlen

theorem removeItem_inv (s : List WheelItem) (id : String) (hInv : Inv s) :
    Inv (removeItem s id) := by
  obtain ⟨hlen, hnodup, hnn, hgood⟩ := hInv
  by_cases hle : s.length ≤ 2
  · rw [removeItem_noop s id hle]
    exact ⟨hlen, hnodup, hnn, hgood⟩
  · rw [removeItem_eq s id hle]
    have hsub : (s.filter fun it => it.id ≠ id).Sublist s := List.filter_sublist s
    have hunodup : ((s.filter fun it => it.id ≠ id).map fun it => it.id).Nodup :=
      (hsub.map fun it => it.id).nodup hnodup
    have hulen := filter_ne_id_length_ge s id hnodup
    have hulen2 : 2 ≤ (s.filter fun it => it.id ≠ id).length := by omega
    exact merge_inv _ hunodup hulen2 fun it hit => hnn it (List.mem_of_mem_filter hit)

theorem toggleItemVisibility_inv (s : List WheelItem) (id : String) (hInv : Inv s) :
    Inv (toggleItemVisibility s id) := by
  obtain ⟨hlen, hnodup, hnn, hgood⟩ := hInv
  rw [toggleItemVisibility_eq]
  have hids : ((s.map fun it =>
      if it.id = id then { it with hidden := !it.hidden } else it).map fun it => it.id)
      = s.map fun it => it.id := by
    rw [List.map_map]
    apply List.map_congr_left
    intro it _
    by_cases h : it.id = id
    · simp only [Function.comp, if_pos h]
    · simp only [Function.comp, if_neg h]
  apply merge_inv
  · rw [hids]
    exact hnodup
  · rw [List.length_map]
    exact hlen
  · intro it hit
    rw [List.mem_map] at hit
    obtain ⟨c, hc, rfl⟩ := hit
    by_cases h : c.id = id
    · rw [if_pos h]
      exact hnn c hc
    · rw [if_neg h]
      exact hnn c hc

/-- Every fresh operation sequence keeps the invariant. -/
theorem runOps_inv (ops : List WheelOp) (s : List WheelItem) (hInv : Inv s)
    (hfresh : freshOps s ops) : Inv (runOps s ops) := by
  induction ops generalizing s with
  | nil => exact hInv
  | cons op rest ih =>
    have hfresh' : opOk s op ∧ freshOps (applyOp s op) rest := hfresh
    have hstep : Inv (applyOp s op) := by
      cases op with
      | addSegment label newId => exact addItem_inv s label newId hInv hfresh'.1
      | removeSegment id => exact removeItem_inv s id hInv
      | setWeight id v => exact updateProbability_inv s id (v : ℚ) hInv
      | toggleVisibility id => exact toggleItemVisibility_inv s id hInv
    exact ih (applyOp s op) hstep hfresh'.2

theorem initialItems_inv : Inv initialItems := by
  refine ⟨by norm_num [initialItems], by decide, ?_, fun _ => Or.inl ?_⟩
  · intro it hit
    fin_cases hit <;> norm_num
  · norm_num [initialItems, probSum]

/-! ### The selection resolver -/

/-- On an already-normalized list of positive integer weights summing to 100,
the proportional normalizer is the identity. -/
theorem normalize_none_fixpoint (l : List WheelItem)
    (hint : ∀ it ∈ l, ∃ n : ℕ, 1 ≤ n ∧ it.probability = (n : ℚ))
    (hsum : probSum l = 100) :
    normalizeProbabilities l none = l := by
  have hpos : ∀ it ∈ l, 1 ≤ it.probability := by
    intro it hit
    obtain ⟨n, hn1, hn⟩ := hint it hit
    rw [hn]
    exact_mod_cast hn1
  have hclamp : clampItems l = l := clampItems_eq_self l hpos
  have hT : probSum (clampItems l) = 100 := by rw [hclamp, hsum]
  rw [normalize_none_eq l (by rw [hT]; norm_num), hclamp, hsum]
  unfold proportionalAdjust
  have hpt : ∀ it ∈ l,
      ({ it with probability := max 1 ((jsRound (it.probability / 100 * 100) : ℤ) : ℚ) })
        = it := by
    intro it hit
    obtain ⟨n, hn1, hn⟩ := hint it hit
    have hdiv : it.probability / 100 * 100 = it.probability := by field_simp
    have hr : jsRound it.probability = (n : ℤ) := by
      unfold jsRound
      rw [hn]
      have hc : ((n : ℕ) : ℚ) = ((n : ℤ) : ℚ) := by push_cast; rfl
      rw [hc, Int.floor_int_add]
      norm_num
    have hmax : max (1 : ℚ) ((n : ℤ) : ℚ) = it.probability := by
      rw [max_eq_right (by exact_mod_cast hn1)]
      rw [hn]
      push_cast
      rfl
    rw [hdiv, hr, hmax]
  rw [List.map_congr_left hpt]
  exact List.map_id l

theorem jsMod_nonneg_eq (x : ℚ) (hx : 0 ≤ x) :
    jsMod x 360 = x - 360 * ((⌊x / 360⌋ : ℤ) : ℚ) := by
  unfold jsMod jsTrunc
  rw [if_pos (by positivity)]

/-- For nonnegative angles the JS remainder lands in [0, 360). -/
theorem jsMod_range (x : ℚ) (hx : 0 ≤ x) : 0 ≤ jsMod x 360 ∧ jsMod x 360 < 360 := by
  rw [jsMod_nonneg_eq x hx]
  have h1 : ((⌊x / 360⌋ : ℤ) : ℚ) ≤ x / 360 := Int.floor_le _
  have h2 : x / 360 < ((⌊x / 360⌋ : ℤ) : ℚ) + 1 := Int.lt_floor_add_one _
  have h1' : 360 * ((⌊x / 360⌋ : ℤ) : ℚ) ≤ x := by
    have h := mul_le_mul_of_nonneg_left h1 (by norm_num : (0 : ℚ) ≤ 360)
    calc 360 * ((⌊x / 360⌋ : ℤ) : ℚ) ≤ 360 * (x / 360) := h
      _ = x := by ring
  have h2' : x < 360 * ((⌊x / 360⌋ : ℤ) : ℚ) + 360 := by
    have h := mul_lt_mul_of_pos_left h2 (by norm_num : (0 : ℚ) < 360)
    calc x = 360 * (x / 360) := by ring
      _ < 360 * (((⌊x / 360⌋ : ℤ) : ℚ) + 1) := h
      _ = 360 * ((⌊x / 360⌋ : ℤ) : ℚ) + 360 := by ring
  exact ⟨by linarith, by linarith⟩

/-- The arc scans of the code and of the spec agree (their arc widths are the
same product written in different orders). -/
theorem findWinnerAux_eq_specFindArc (theta : ℚ) :
    ∀ (l : List WheelItem) (start : ℚ),
    findWinnerAux theta start l = specFindArc theta start l := by
  intro l
  induction l with
  | nil => intro start; rfl
  | cons it rest ih =>
    intro start
    simp only [findWinnerAux, specFindArc]
    have harc : 360 * it.probability / 100 = it.probability / 100 * 360 := by ring
    rw [harc]
    by_cases h : start ≤ theta ∧ theta < start + it.probability / 100 * 360
    · rw [if_pos h, if_pos h]
    · rw [if_neg h, if_neg h]
      exact ih _

theorem findWinnerAux_mem (theta : ℚ) :
    ∀ (l : List WheelItem) (start : ℚ) (it : WheelItem),
    findWinnerAux theta start l = some it → it ∈ l := by
  intro l
  induction l with
  | nil =>
    intro start it h
    simp [findWinnerAux] at h
  | cons a rest ih =>
    intro start it h
    simp only [findWinnerAux] at h
    by_cases hc : start ≤ theta ∧ theta < start + 360 * a.probability / 100
    · rw [if_pos hc] at h
      rw [Option.some.injEq] at h
      rw [← h]
      exact List.mem_cons_self a rest
    · rw [if_neg hc] at h
      exact List.mem_cons_of_mem _ (ih _ it h)

/-- A returned winner carries an id of the input list. -/
theorem determineWinner_mem_ids (theta : ℚ) (l : List WheelItem) (it : WheelItem)
    (h : determineWinner theta l = some it) : it.id ∈ l.map fun x => x.id := by
  unfold determineWinner at h
  have hmem := findWinnerAux_mem _ _ _ it h
  have hids := normalize_map_proj (fun x => x.id) (fun _ _ => rfl) l none
  rw [← hids]
  exact List.mem_map_of_mem _ hmem

/-! ### Hidden-insensitivity of the normalizer -/

theorem key_probs_eq (l₁ l₂ : List WheelItem) (h : l₁.map itemKey = l₂.map itemKey) :
    (l₁.map fun it => it.probability) = l₂.map fun it => it.probability := by
  have h2 := congrArg (List.map Prod.snd) h
  rw [List.map_map, List.map_map] at h2
  exact h2

theorem key_probSum_eq (l₁ l₂ : List WheelItem) (h : l₁.map itemKey = l₂.map itemKey) :
    probSum l₁ = probSum l₂ := by
  rw [probSum_def, probSum_def, key_probs_eq l₁ l₂ h]

theorem key_clamp_eq (l₁ l₂ : List WheelItem) (h : l₁.map itemKey = l₂.map itemKey) :
    (clampItems l₁).map itemKey = (clampItems l₂).map itemKey := by
  unfold clampItems
  rw [List.map_map, List.map_map]
  have e₁ : ∀ l : List WheelItem,
      (l.map fun it => itemKey { it with probability := max 1 it.probability })
        = (l.map itemKey).map fun p => (p.1, max 1 p.2) := by
    intro l
    rw [List.map_map]
    rfl
  calc (l₁.map (itemKey ∘ fun it => { it with probability := max 1 it.probability }))
      = (l₁.map itemKey).map (fun p => (p.1, max 1 p.2)) := e₁ l₁
    _ = (l₂.map itemKey).map (fun p => (p.1, max 1 p.2)) := by rw [h]
    _ = l₂.map (itemKey ∘ fun it => { it with probability := max 1 it.probability }) :=
        (e₁ l₂).symm

theorem key_find?_eq (fid : String) :
    ∀ l₁ l₂ : List WheelItem, l₁.map itemKey = l₂.map itemKey →
    Option.map itemKey (l₁.find? fun it => it.id = fid)
      = Option.map itemKey (l₂.find? fun it => it.id = fid) := by
  intro l₁
  induction l₁ with
  | nil =>
    intro l₂ h
    cases l₂ with
    | nil => rfl
    | cons b r₂ => simp at h
  | cons a r ih =>
    intro l₂ h
    cases l₂ with
    | nil => simp at h
    | cons b r₂ =>
      simp only [List.map_cons, List.cons.injEq] at h
      obtain ⟨hab, hr⟩ := h
      have hid : a.id = b.id := congrArg Prod.fst hab
      by_cases hc : a.id = fid
      · rw [List.find?_cons_of_pos _ (by simp [hc]),
          List.find?_cons_of_pos _ (by simp [← hid, hc])]
        simp only [Option.map_some']
        rw [hab]
      · rw [List.find?_cons_of_neg _ (by simp [hc]),
          List.find?_cons_of_neg _ (by simp [← hid, hc])]
        exact ih r₂ hr

theorem key_filter_ne_eq (fid : String) :
    ∀ l₁ l₂ : List WheelItem, l₁.map itemKey = l₂.map itemKey →
    ((l₁.filter fun it => it.id ≠ fid).map itemKey)
      = (l₂.filter fun it => it.id ≠ fid).map itemKey := by
  intro l₁
  induction l₁ with
  | nil =>
    intro l₂ h
    cases l₂ with
    | nil => rfl
    | cons b r₂ => simp at h
  | cons a r ih =>
    intro l₂ h
    cases l₂ with
    | nil => simp at h
    | cons b r₂ =>
      simp only [List.map_cons, List.cons.injEq] at h
      obtain ⟨hab, hr⟩ := h
      have hid : a.id = b.id := congrArg Prod.fst hab
      by_cases hc : a.id = fid
      · rw [List.filter_cons_of_neg (by simp [hc]),
          List.filter_cons_of_neg (by simp [← hid, hc])]
        exact ih r₂ hr
      · rw [List.filter_cons_of_pos (by simp [hc]),
          List.filter_cons_of_pos (by simp [← hid, hc])]
        simp only [List.map_cons]
        rw [hab, ih r₂ hr]

/-- The normalizer reads only ids and weights: lists equal under itemKey
normalize to lists equal under itemKey, in both modes. -/
theorem normalize_key_eq (fixedId : Option String) (l₁ l₂ : List WheelItem)
    (h : l₁.map itemKey = l₂.map itemKey) :
    (normalizeProbabilities l₁ fixedId).map itemKey
      = (normalizeProbabilities l₂ fixedId).map itemKey := by
  have hck := key_clamp_eq l₁ l₂ h
  have hT : probSum (clampItems l₁) = probSum (clampItems l₂) := key_probSum_eq _ _ hck
  by_cases hT0 : probSum (clampItems l₁) = 0
  · rw [normalize_eq_of_total_zero l₁ fixedId hT0,
      normalize_eq_of_total_zero l₂ fixedId (by rw [← hT]; exact hT0)]
    exact hck
  · have hT0' : probSum (clampItems l₂) ≠ 0 := by rw [← hT]; exact hT0
    cases fixedId with
    | none =>
      rw [normalize_none_eq l₁ hT0, normalize_none_eq l₂ hT0']
      unfold proportionalAdjust
      have e : ∀ (l : List WheelItem) (t : ℚ),
          ((l.map fun it =>
            { it with probability := max 1 ((jsRound (it.probability / t * 100) : ℤ) : ℚ) }).map
              itemKey)
            = (l.map itemKey).map fun p =>
                (p.1, max 1 ((jsRound (p.2 / t * 100) : ℤ) : ℚ)) := by
        intro l t
        rw [List.map_map, List.map_map]
        rfl
      rw [e, e, hck, hT]
    | some fid =>
      have hfind := key_find?_eq fid (clampItems l₁) (clampItems l₂) hck
      cases h₁ : (clampItems l₁).find? fun it => it.id = fid with
      | none =>
        cases h₂ : (clampItems l₂).find? fun it => it.id = fid with
        | none =>
          rw [normalize_some_eq_notfound l₁ fid hT0 h₁,
            normalize_some_eq_notfound l₂ fid hT0' h₂]
          exact hck
        | some fx₂ =>
          rw [h₁, h₂] at hfind
          rw [Option.map_none', Option.map_some'] at hfind
          exact Option.noConfusion hfind
      | some fx₁ =>
        cases h₂ : (clampItems l₂).find? fun it => it.id = fid with
        | none =>
          rw [h₁, h₂] at hfind
          rw [Option.map_some', Option.map_none'] at hfind
          exact Option.noConfusion hfind
        | some fx₂ =>
          rw [h₁, h₂] at hfind
          simp only [Option.map_some', Option.some.injEq] at hfind
          have hfp : fx₁.probability = fx₂.probability := congrArg Prod.snd hfind
          rw [normalize_some_eq_found l₁ fid fx₁ hT0 h₁,
            normalize_some_eq_found l₂ fid fx₂ hT0' h₂]
          unfold pinnedAdjust
          have hOT : ((clampItems l₁).filter fun it => it.id ≠ fid).map
                (fun it => it.probability)
              = ((clampItems l₂).filter fun it => it.id ≠ fid).map
                fun it => it.probability :=
            key_probs_eq _ _ (key_filter_ne_eq fid _ _ hck)
          have e : ∀ (l : List WheelItem) (R OT : ℚ),
              ((l.map fun it =>
                if it.id = fid then it
                else
                  { it with probability := max 1 ((jsRound (R *
                    (if OT = 0 then 1 else it.probability / OT)) : ℤ) : ℚ) }).map itemKey)
                = (l.map itemKey).map fun p =>
                    if p.1 = fid then p
                    else (p.1, max 1 ((jsRound (R *
                      (if OT = 0 then 1 else p.2 / OT)) : ℤ) : ℚ)) := by
            intro l R OT
            rw [List.map_map, List.map_map]
            apply List.map_congr_left
            intro it _
            by_cases hc : it.id = fid
            · simp only [Function.comp, if_pos hc]
              rw [if_pos (show (itemKey it).1 = fid from hc)]
            · simp only [Function.comp, if_neg hc]
              rw [if_neg (show ¬(itemKey it).1 = fid from hc)]
              rfl
          rw [e, e, hck, hfp, hOT]

theorem unhideAll_key (items : List WheelItem) :
    (unhideAll items).map itemKey = items.map itemKey := by
  unfold unhideAll
  rw [List.map_map]
  rfl

/-! ### Remaining auxiliary lemmas -/

theorem assignShares_cons₂ (a b : ℚ) (x y : WheelItem) (rest : List WheelItem) :
    assignShares a b (x :: y :: rest)
      = { x with probability := a } :: assignShares a b (y :: rest) := rfl

theorem filter_hidden_length_eq : ∀ l₁ l₂ : List WheelItem,
    (l₁.map fun it => it.hidden) = (l₂.map fun it => it.hidden) →
    (getVisibleItems l₁).length = (getVisibleItems l₂).length := by
  intro l₁
  induction l₁ with
  | nil =>
    intro l₂ h
    cases l₂ with
    | nil => rfl
    | cons b r₂ => simp at h
  | cons a r ih =>
    intro l₂ h
    cases l₂ with
    | nil => simp at h
    | cons b r₂ =>
      simp only [List.map_cons, List.cons.injEq] at h
      obtain ⟨hab, hr⟩ := h
      unfold getVisibleItems at ih ⊢
      by_cases hh : a.hidden
      · rw [List.filter_cons_of_neg (by simp [hh]),
          List.filter_cons_of_neg (by simp [← hab, hh])]
        exact ih r₂ hr
      · rw [List.filter_cons_of_pos (by simp [hh]),
          List.filter_cons_of_pos (by simp [← hab, hh])]
        simp only [List.length_cons]
        rw [ih r₂ hr]

theorem getVisible_mergeVisible_length (u nv : List WheelItem)
    (hnv : ∀ ni ∈ nv, ni.hidden = false) :
    (getVisibleItems (mergeVisible u nv)).length = (getVisibleItems u).length :=
  filter_hidden_length_eq _ _ (mergeVisible_map_hidden u nv hnv)

/-! ### Claim theorems -/

/-- C1 (confirmed).  The winner resolution determineWinner is a deterministic
pure function of its inputs: two calls with identical arguments return the
identical result (a segment or none both times). -/
theorem claim_C1 (theta1 theta2 : ℚ) (segs1 segs2 : List WheelItem)
    (ht : theta1 = theta2) (hs : segs1 = segs2) :
    determineWinner theta1 segs1 = determineWinner theta2 segs2 := by
  rw [ht, hs]

theorem claim_C1_witness :
    determineWinner 90 initialItems = determineWinner 90 initialItems :=
  claim_C1 90 90 initialItems initialItems rfl rfl

/-- C6 (confirmed).  With at most 2 segments (visible plus hidden) removeItem
is a silent no-op leaving the collection unchanged, and along every fresh
operation sequence from the initial collection the segment count never drops
below 2. -/
theorem claim_C6 :
    (∀ (items : List WheelItem) (id : String), items.length ≤ 2 →
      removeItem items id = items)
    ∧ ∀ ops : List WheelOp, freshOps initialItems ops →
      2 ≤ (runOps initialItems ops).length := by
  constructor
  · exact removeItem_noop
  · intro ops hf
    exact (runOps_inv ops initialItems initialItems_inv hf).1

theorem claim_C6_witness :
    removeItem twoSegs "1" = twoSegs ∧ 2 ≤ (runOps initialItems []).length :=
  ⟨claim_C6.1 twoSegs "1" (by decide), claim_C6.2 [] (by trivial)⟩

/-- C8 corrected (the normalizer does not leave hidden weights untouched; it
ignores the hidden flag entirely): normalizing with every hidden flag cleared
produces exactly the same weights, so hidden segments are clamped, counted in
the total and rescaled exactly like visible ones, in both modes. -/
theorem claim_C8 (items : List WheelItem) (fixedId : Option String) :
    ((normalizeProbabilities (unhideAll items) fixedId).map fun it => it.probability)
      = (normalizeProbabilities items fixedId).map fun it => it.probability :=
  key_probs_eq _ _ (normalize_key_eq fixedId _ _ (unhideAll_key items))

/-- C8 is false as stated: proportional normalization of a hidden segment of
weight 20 next to a visible segment of weight 20 rescales the hidden one to
50 (the sum target ranges over all segments), instead of leaving it at 20. -/
theorem claim_C8_counterexample :
    (normalizeProbabilities hiddenPair none).head?
      = some { id := "1", label := "A", probability := 50, color := "c", hidden := true }
    ∧ (50 : ℚ) ≠ 20 := by
  constructor
  · simp [normalizeProbabilities, hiddenPair, clampItems, probSum, proportionalAdjust,
      jsRound]
    norm_num
  · norm_num

/-- C10 (confirmed).  The normalizer returns a list of the same length in
which every segment keeps its id, label, color and hidden flag: only the
weight field is ever changed, in every mode. -/
theorem claim_C10 (items : List WheelItem) (fixedId : Option String) :
    (normalizeProbabilities items fixedId).length = items.length
    ∧ (normalizeProbabilities items fixedId).map
        (fun it => (it.id, it.label, it.color, it.hidden))
      = items.map fun it => (it.id, it.label, it.color, it.hidden) :=
  ⟨normalize_length items fixedId,
    normalize_map_proj (fun it => (it.id, it.label, it.color, it.hidden))
      (fun _ _ => rfl) items fixedId⟩

/-- C2 is false as stated for negative terminal angles: at angle -90 the JS
remainder is -90, below every arc, so the code returns no winner, while the
claimed mod-360 reduction gives the pointer 270 ∈ [0, 360), inside the single
segment's arc [0, 360), as the spec resolver shows. -/
theorem claim_C2_counterexample :
    determineWinner (-90) singleSeg = none
    ∧ specResolveWinner (-90) singleSeg
      = some { id := "1", label := "A", probability := 100, color := "c", hidden := false } := by
  constructor
  · simp only [determineWinner, singleSeg, normalizeProbabilities, clampItems, probSum,
      jsMod, jsTrunc, jsRound, proportionalAdjust, List.map_cons, List.map_nil,
      List.sum_cons, List.sum_nil, findWinnerAux]
    norm_num [findWinnerAux]
  · simp only [specResolveWinner, singleSeg, specFindArc]
    norm_num

/-- C2 amended: for every nonnegative terminal rotation angle and every
segment list of positive integer weights summing to 100, the JS remainder is
the mod-360 pointer in [0, 360) and determineWinner agrees with the
spec-modelled resolver (contiguous half-open arcs from 0°, the winner is the
arc containing the pointer, none if no arc contains it). -/
theorem claim_C2 (theta : ℚ) (segments : List WheelItem) (h0 : 0 ≤ theta)
    (hint : ∀ it ∈ segments, ∃ n : ℕ, 1 ≤ n ∧ it.probability = (n : ℚ))
    (hsum : probSum segments = 100) :
    (0 ≤ jsMod theta 360 ∧ jsMod theta 360 < 360)
    ∧ determineWinner theta segments = specResolveWinner theta segments := by
  refine ⟨jsMod_range theta h0, ?_⟩
  unfold determineWinner specResolveWinner
  rw [normalize_none_fixpoint segments hint hsum, jsMod_nonneg_eq theta h0]
  exact findWinnerAux_eq_specFindArc _ segments 0

theorem claim_C2_witness :
    (0 ≤ jsMod 450 360 ∧ jsMod 450 360 < 360)
    ∧ determineWinner 450 twoSegs = specResolveWinner 450 twoSegs := by
  apply claim_C2 450 twoSegs (by norm_num)
  · intro it hit
    simp only [twoSegs, List.mem_cons, List.not_mem_nil, or_false] at hit
    rcases hit with rfl | rfl
    · exact ⟨60, by norm_num, by norm_num⟩
    · exact ⟨40, by norm_num, by norm_num⟩
  · norm_num [twoSegs, probSum]

theorem calculateEqualShare_probs (l : List WheelItem) (h : l ≠ []) :
    (calculateEqualShare l).map (fun it => it.probability)
      = List.replicate (l.length - 1) ((100 / l.length : ℕ) : ℚ)
        ++ [100 - ((100 / l.length : ℕ) : ℚ) * ((l.length - 1 : ℕ) : ℚ)] :=
  assignShares_probs _ _ _ h

/-- C5 amended (the equal-share description needs at least one remaining
visible segment): for collections with more than 2 segments and unique ids,
after removeItem the N visible segments carry floor(100/N) each except the
last, which carries the remainder, the visible total is exactly 100, and every
hidden segment of the result is an untouched segment of the input. -/
theorem claim_C5 (items : List WheelItem) (id : String)
    (hnodup : (items.map fun it => it.id).Nodup)
    (hlen : 2 < items.length)
    (hvis : getVisibleItems (removeItem items id) ≠ []) :
    ((getVisibleItems (removeItem items id)).map fun it => it.probability)
      = List.replicate ((getVisibleItems (removeItem items id)).length - 1)
          ((100 / (getVisibleItems (removeItem items id)).length : ℕ) : ℚ)
        ++ [100 - ((100 / (getVisibleItems (removeItem items id)).length : ℕ) : ℚ)
            * (((getVisibleItems (removeItem items id)).length - 1 : ℕ) : ℚ)]
    ∧ visibleSum (removeItem items id) = 100
    ∧ ∀ it ∈ removeItem items id, it.hidden = true → it ∈ items := by
  have hle : ¬items.length ≤ 2 := by omega
  have hunodup : ((items.filter fun it => it.id ≠ id).map fun it => it.id).Nodup :=
    ((List.filter_sublist items).map fun it => it.id).nodup hnodup
  have hmerge := getVisible_mergeVisible (items.filter fun it => it.id ≠ id) hunodup
  have hres : getVisibleItems (removeItem items id)
      = calculateEqualShare (getVisibleItems (items.filter fun it => it.id ≠ id)) := by
    rw [removeItem_eq items id hle]
    exact hmerge
  have hvisu : getVisibleItems (items.filter fun it => it.id ≠ id) ≠ [] := by
    intro hnil
    apply hvis
    rw [hres, hnil]
    rfl
  have hleneq : (getVisibleItems (removeItem items id)).length
      = (getVisibleItems (items.filter fun it => it.id ≠ id)).length := by
    rw [hres, calculateEqualShare_length]
  refine ⟨?_, ?_, ?_⟩
  · rw [hres, calculateEqualShare_length]
    exact calculateEqualShare_probs _ hvisu
  · rw [visibleSum, probSum_def, hres]
    rw [← probSum_def]
    exact calculateEqualShare_sum _ hvisu
  · intro it hmem hhid
    rw [removeItem_eq items id hle] at hmem
    have hin := mergeVisible_elem_hidden _ _ (ces_vis_hidden_false _) it hmem hhid
    exact List.mem_of_mem_filter hin

/-- C5 is false as stated when no segment remains visible: removing from a
3-segment collection whose segments are all hidden leaves a visible total of
0, not exactly 100. -/
theorem claim_C5_counterexample :
    2 < threeHidden.length ∧ visibleSum (removeItem threeHidden "1") = 0 := by
  constructor
  · decide
  · simp [visibleSum, probSum, removeItem, threeHidden, mergeVisible, getVisibleItems,
      calculateEqualShare, assignShares]

theorem claim_C5_witness :
    ((getVisibleItems (removeItem initialItems "3")).map fun it => it.probability)
      = List.replicate ((getVisibleItems (removeItem initialItems "3")).length - 1)
          ((100 / (getVisibleItems (removeItem initialItems "3")).length : ℕ) : ℚ)
        ++ [100 - ((100 / (getVisibleItems (removeItem initialItems "3")).length : ℕ) : ℚ)
            * (((getVisibleItems (removeItem initialItems "3")).length - 1 : ℕ) : ℚ)]
    ∧ visibleSum (removeItem initialItems "3") = 100
    ∧ ∀ it ∈ removeItem initialItems "3", it.hidden = true → it ∈ initialItems := by
  apply claim_C5 initialItems "3" (by decide) (by decide)
  intro hnil
  have h := congrArg List.length hnil
  simp only [List.length_nil] at h
  rw [removeItem_eq initialItems "3" (by decide)] at h
  rw [getVisible_mergeVisible_length _ _ (ces_vis_hidden_false _)] at h
  revert h
  decide

/-- The C7 scenario result: segment 3 pinned at 50, every other segment
rounded half-up from 12.5 to 13. -/
theorem claim_C7_eval : updateProbability initialItems "3" 50
    = [{ id := "1", label := "Prize 1", probability := 13, color := "#FF6384", hidden := false },
       { id := "2", label := "Prize 2", probability := 13, color := "#36A2EB", hidden := false },
       { id := "3", label := "Prize 3", probability := 50, color := "#FFCE56", hidden := false },
       { id := "4", label := "Prize 4", probability := 13, color := "#4BC0C0", hidden := false },
       { id := "5", label := "Prize 5", probability := 13, color := "#9966FF", hidden := false }] := by
  simp [updateProbability, initialItems, normalizeProbabilities, clampItems, probSum,
    pinnedAdjust, proportionalAdjust, jsRound, List.find?]
  norm_num [jsRound]

/-- C7 corrected: setWeight("3", 50) pins segment 3 at exactly 50 and scales
the other four in proportion to their equal prior 20:20:20:20 ratio, but each
gets Math.round(50 * 20/80) = round(12.5) = 13 (round half up, independent per
segment): the four others sum to 52, not 50. -/
theorem claim_C7 :
    updateProbability initialItems "3" 50
      = [{ id := "1", label := "Prize 1", probability := 13, color := "#FF6384", hidden := false },
         { id := "2", label := "Prize 2", probability := 13, color := "#36A2EB", hidden := false },
         { id := "3", label := "Prize 3", probability := 50, color := "#FFCE56", hidden := false },
         { id := "4", label := "Prize 4", probability := 13, color := "#4BC0C0", hidden := false },
         { id := "5", label := "Prize 5", probability := 13, color := "#9966FF", hidden := false }]
    ∧ (((updateProbability initialItems "3" 50).filter fun it => it.id ≠ "3").map
        fun it => it.probability).sum = 52 := by
  refine ⟨claim_C7_eval, ?_⟩
  rw [claim_C7_eval]
  simp
  norm_num

/-- C7 is false as stated: the four non-pinned segments do not sum to 50
(each becomes 13, their total is 52). -/
theorem claim_C7_counterexample :
    ¬((((updateProbability initialItems "3" 50).filter fun it => it.id ≠ "3").map
        fun it => it.probability).sum = 50) := by
  rw [claim_C7_eval]
  simp
  norm_num

theorem hideAll_eval : runOps initialItems hideAllOps
    = [{ id := "1", label := "Prize 1", probability := 20, color := "#FF6384", hidden := true },
       { id := "2", label := "Prize 2", probability := 25, color := "#36A2EB", hidden := true },
       { id := "3", label := "Prize 3", probability := 33, color := "#FFCE56", hidden := true },
       { id := "4", label := "Prize 4", probability := 50, color := "#4BC0C0", hidden := true },
       { id := "5", label := "Prize 5", probability := 100, color := "#9966FF", hidden := true }] := by
  simp [runOps, hideAllOps, applyOp, toggleItemVisibility, mergeVisible, initialItems,
    getVisibleItems, calculateEqualShare, assignShares, List.find?]

/-- C3 is false as stated: hiding all five segments is a legal sequence of
toggleVisibility operations after which the visible sum is 0 and the number of
visible segments is 0, so the sum is not within ±0 of 100. -/
theorem claim_C3_counterexample :
    ¬(|visibleSum (runOps initialItems hideAllOps) - 100|
        ≤ (visibleCount (runOps initialItems hideAllOps) : ℚ)) := by
  rw [hideAll_eval]
  simp [visibleSum, visibleCount, probSum, getVisibleItems]

/-- C3 amended: over every sequence of the four operations with fresh added
ids, if at completion no segment is hidden, the sum of the visible weights is
within ±(number of visible segments) of 100. -/
theorem claim_C3 (ops : List WheelOp) (hfresh : freshOps initialItems ops)
    (hnh : NoHidden (runOps initialItems ops)) :
    |visibleSum (runOps initialItems ops) - 100|
      ≤ (visibleCount (runOps initialItems ops) : ℚ) := by
  obtain ⟨hlen, hnodup, hnn, hgood⟩ := runOps_inv ops initialItems initialItems_inv hfresh
  have hvis := getVisibleItems_eq_self _ hnh
  unfold visibleSum visibleCount
  rw [hvis]
  rcases hgood hnh with h100 | ⟨_, hb⟩
  · rw [h100]
    simp
  · exact hb

theorem claim_C3_witness :
    freshOps initialItems [] ∧ NoHidden (runOps initialItems [])
    ∧ |visibleSum (runOps initialItems []) - 100|
        ≤ (visibleCount (runOps initialItems []) : ℚ) :=
  ⟨by trivial, by decide, claim_C3 [] (by trivial) (by decide)⟩

theorem toggle2_eval : toggleItemVisibility initialItems "2"
    = [{ id := "1", label := "Prize 1", probability := 25, color := "#FF6384", hidden := false },
       { id := "2", label := "Prize 2", probability := 20, color := "#36A2EB", hidden := true },
       { id := "3", label := "Prize 3", probability := 25, color := "#FFCE56", hidden := false },
       { id := "4", label := "Prize 4", probability := 25, color := "#4BC0C0", hidden := false },
       { id := "5", label := "Prize 5", probability := 25, color := "#9966FF", hidden := false }] := by
  simp [toggleItemVisibility, mergeVisible, initialItems, getVisibleItems,
    calculateEqualShare, assignShares, List.find?]
  norm_num

/-- C9 (confirmed).  Hiding segment 2 of the five equal segments leaves four
visible segments of weight 25 each, keeps segment 2 at weight 20 with
hidden = true, and segment 2 can never be the resolved winner on the visible
segments. -/
theorem claim_C9 :
    ((getVisibleItems (toggleItemVisibility initialItems "2")).map
        fun it => (it.id, it.probability))
      = [("1", 25), ("3", 25), ("4", 25), ("5", 25)]
    ∧ toggleItemVisibility initialItems "2"
      = [{ id := "1", label := "Prize 1", probability := 25, color := "#FF6384", hidden := false },
         { id := "2", label := "Prize 2", probability := 20, color := "#36A2EB", hidden := true },
         { id := "3", label := "Prize 3", probability := 25, color := "#FFCE56", hidden := false },
         { id := "4", label := "Prize 4", probability := 25, color := "#4BC0C0", hidden := false },
         { id := "5", label := "Prize 5", probability := 25, color := "#9966FF", hidden := false }]
    ∧ ∀ (theta : ℚ) (w : WheelItem),
        determineWinner theta (getVisibleItems (toggleItemVisibility initialItems "2"))
          = some w → w.id ≠ "2" := by
  refine ⟨?_, toggle2_eval, ?_⟩
  · rw [toggle2_eval]
    simp [getVisibleItems]
  · intro theta w h
    have hids := determineWinner_mem_ids theta _ w h
    rw [toggle2_eval] at hids
    simp [getVisibleItems] at hids
    intro heq
    rw [heq] at hids
    rcases hids with h | h | h | h <;> simp at h

theorem claim_C9_witness :
    determineWinner 0 (getVisibleItems (toggleItemVisibility initialItems "2"))
      = some { id := "1", label := "Prize 1", probability := 25, color := "#FF6384",
               hidden := false }
    ∧ ({ id := "1", label := "Prize 1", probability := 25, color := "#FF6384",
         hidden := false } : WheelItem).id ≠ "2" := by
  have h : determineWinner 0 (getVisibleItems (toggleItemVisibility initialItems "2"))
      = some { id := "1", label := "Prize 1", probability := 25, color := "#FF6384",
               hidden := false } := by
    rw [toggle2_eval]
    simp [determineWinner, getVisibleItems, normalizeProbabilities, clampItems, probSum,
      proportionalAdjust, jsRound, jsMod, jsTrunc, findWinnerAux]
    norm_num [findWinnerAux]
  exact ⟨h, claim_C9.2.2 0 _ h⟩

/-- C4 amended (the guarantee needs at most 100 visible segments): after any
one mutating operation on a collection of integer weights at least 1, every
segment of the result again has an integer weight at least 1, provided at
most 100 segments are visible once the operation completes. -/
theorem claim_C4 (s : List WheelItem) (op : WheelOp)
    (hval : ∀ it ∈ s, 1 ≤ it.probability ∧ ∃ n : ℕ, it.probability = (n : ℚ))
    (hcap : (getVisibleItems (applyOp s op)).length ≤ 100) :
    ∀ it' ∈ applyOp s op, 1 ≤ it'.probability ∧ ∃ n : ℕ, it'.probability = (n : ℚ) := by
  cases op with
  | addSegment label newId =>
    show ∀ it' ∈ addItem s label newId, _
    unfold addItem
    by_cases hl : label.trim = ""
    · rw [if_pos hl]
      exact hval
    · rw [if_neg hl]
      intro it' hm
      refine ⟨normalize_mem_one_le _ _ it' hm, normalize_mem_nat _ _ ?_ it' hm⟩
      intro it hit
      rw [List.mem_append] at hit
      rcases hit with h | h
      · exact (hval it h).2
      · rw [List.mem_singleton] at h
        subst h
        exact ⟨10, by norm_num⟩
  | removeSegment id =>
    show ∀ it' ∈ removeItem s id, _
    by_cases hle : s.length ≤ 2
    · rw [removeItem_noop s id hle]
      exact hval
    · have hcap' : (getVisibleItems (removeItem s id)).length ≤ 100 := hcap
      rw [removeItem_eq s id hle] at hcap'
      rw [removeItem_eq s id hle]
      have hnv := ces_vis_hidden_false (s.filter fun it => it.id ≠ id)
      rw [getVisible_mergeVisible_length _ _ hnv] at hcap'
      intro it' hm
      rcases mergeVisible_mem _ _ it' hm with h | h
      · exact hval it' (List.mem_of_mem_filter h)
      · have hnenil : getVisibleItems (s.filter fun it => it.id ≠ id) ≠ [] := by
          intro hnil
          rw [hnil] at h
          simp [calculateEqualShare, assignShares] at h
        exact ⟨calculateEqualShare_mem_one_le _ hcap' (List.length_pos.mpr hnenil) it' h,
          calculateEqualShare_mem_nat _ it' h⟩
  | setWeight id v =>
    show ∀ it' ∈ updateProbability s id ((v : ℤ) : ℚ), _
    rw [updateProbability_eq]
    intro it' hm
    refine ⟨normalize_mem_one_le _ _ it' hm, normalize_mem_nat _ _ ?_ it' hm⟩
    intro it hit
    rw [List.mem_map] at hit
    obtain ⟨c, hc, rfl⟩ := hit
    by_cases h : c.id = id
    · rw [if_pos h]
      show ∃ n : ℕ, max 1 (min 99 ((v : ℤ) : ℚ)) = (n : ℚ)
      have hmin : min (99 : ℚ) ((v : ℤ) : ℚ) = ((min 99 v : ℤ) : ℚ) := by
        push_cast
        rfl
      rw [hmin]
      exact exists_nat_max_one_int (min 99 v)
    · rw [if_neg h]
      exact (hval c hc).2
  | toggleVisibility id =>
    show ∀ it' ∈ toggleItemVisibility s id, _
    have hcap' : (getVisibleItems (toggleItemVisibility s id)).length ≤ 100 := hcap
    rw [toggleItemVisibility_eq] at hcap'
    rw [toggleItemVisibility_eq]
    have hnv := ces_vis_hidden_false
      (s.map fun it => if it.id = id then { it with hidden := !it.hidden } else it)
    rw [getVisible_mergeVisible_length _ _ hnv] at hcap'
    intro it' hm
    rcases mergeVisible_mem _ _ it' hm with h | h
    · rw [List.mem_map] at h
      obtain ⟨c, hc, rfl⟩ := h
      by_cases hcid : c.id = id
      · rw [if_pos hcid]
        exact hval c hc
      · rw [if_neg hcid]
        exact hval c hc
    · have hnenil : getVisibleItems
          (s.map fun it => if it.id = id then { it with hidden := !it.hidden } else it)
            ≠ [] := by
        intro hnil
        rw [hnil] at h
        simp [calculateEqualShare, assignShares] at h
      exact ⟨calculateEqualShare_mem_one_le _ hcap' (List.length_pos.mpr hnenil) it' h,
        calculateEqualShare_mem_nat _ it' h⟩

/-- C4 is false as stated (without the 100-segment cap): toggling an absent id
on a valid collection of 101 visible weight-20 segments re-equalizes them to
floor(100/101) = 0, so some resulting segment has weight 0 < 1. -/
theorem claim_C4_counterexample :
    ¬(∀ it' ∈ applyOp manyItems (WheelOp.toggleVisibility "x"), 1 ≤ it'.probability) := by
  intro h
  have hne : ∀ it ∈ manyItems, ¬(it.id = "x") := by decide
  have hu : (manyItems.map fun it =>
      if it.id = "x" then { it with hidden := !it.hidden } else it) = manyItems := by
    have hcongr : ∀ it ∈ manyItems,
        (if it.id = "x" then { it with hidden := !it.hidden } else it) = it :=
      fun it hit => if_neg (hne it hit)
    rw [List.map_congr_left hcongr]
    exact List.map_id manyItems
  have hnh : NoHidden manyItems := by decide
  have hvm : getVisibleItems manyItems = manyItems := getVisibleItems_eq_self _ hnh
  have happ : applyOp manyItems (WheelOp.toggleVisibility "x")
      = mergeVisible manyItems (calculateEqualShare manyItems) := by
    show toggleItemVisibility manyItems "x" = _
    rw [toggleItemVisibility_eq, hu, hvm]
  have hnodup : (manyItems.map fun it => it.id).Nodup := by decide
  have hgv : getVisibleItems (mergeVisible manyItems (calculateEqualShare manyItems))
      = calculateEqualShare manyItems := by
    have hg := getVisible_mergeVisible manyItems hnodup
    rw [hvm] at hg
    exact hg
  have hnenil : manyItems ≠ [] := by decide
  have hprobs := calculateEqualShare_probs manyItems hnenil
  have hlen : manyItems.length = 101 := by decide
  have hmemprob : ((100 / 101 : ℕ) : ℚ)
      ∈ (calculateEqualShare manyItems).map fun it => it.probability := by
    rw [hprobs, hlen]
    simp
  rw [List.mem_map] at hmemprob
  obtain ⟨it0, hit0, hp0⟩ := hmemprob
  have hit0m : it0 ∈ mergeVisible manyItems (calculateEqualShare manyItems) := by
    rw [← hgv] at hit0
    unfold getVisibleItems at hit0
    exact List.mem_of_mem_filter hit0
  rw [happ] at h
  have hge := h it0 hit0m
  rw [hp0] at hge
  norm_num at hge

theorem claim_C4_witness :
    (∀ it ∈ initialItems, 1 ≤ it.probability ∧ ∃ n : ℕ, it.probability = (n : ℚ))
    ∧ (getVisibleItems (applyOp initialItems (WheelOp.removeSegment "1"))).length ≤ 100
    ∧ ∀ it' ∈ applyOp initialItems (WheelOp.removeSegment "1"),
        1 ≤ it'.probability ∧ ∃ n : ℕ, it'.probability = (n : ℚ) := by
  have hval : ∀ it ∈ initialItems, 1 ≤ it.probability ∧ ∃ n : ℕ, it.probability = (n : ℚ) := by
    intro it hit
    fin_cases hit <;> exact ⟨by norm_num, 20, by norm_num⟩
  have hcap : (getVisibleItems (applyOp initialItems (WheelOp.removeSegment "1"))).length
      ≤ 100 := by
    show (getVisibleItems (removeItem initialItems "1")).length ≤ 100
    rw [removeItem_eq initialItems "1" (by decide),
      getVisible_mergeVisible_length _ _ (ces_vis_hidden_false _)]
    decide
  exact ⟨hval, hcap, claim_C4 initialItems (WheelOp.removeSegment "1") hval hcap⟩

end Spinner
